import Mathlib

/-!
# Blob share commitment rules (package `inclusion`)

A shallow embedding of `inclusion/blob_share_commitment_rules.go` together with
theorems about it.

Modelling conventions.

* A Go integer is a Lean `Int` that lies in the range of its type; every
  arithmetic operation that can leave the range is followed by `IntType.wrap`
  (two's complement wrap-around).  Go's `int` is taken to be 64 bits wide.
* Go's `/` and `%` truncate toward zero: `Int.tdiv` and `Int.tmod`.
* A Go call either returns, panics, or never returns: `Exec`.
  The only loop in the file is the doubling loop of `RoundUpPowerOfTwo`; it is
  run with fuel, and the lemmas `RoundUpPowerOfTwo.loop_stable` and
  `RoundUpPowerOfTwo.loop_forever` show that the fuel chosen in
  `RoundUpPowerOfTwo` is exact: running out of it means that the Go loop never
  exits.
* A Go `error` value is `Option GoError` (`none` is `nil`); a function with
  several results returns a tuple, as in Go.
* `float64` arithmetic (used by `BlobMinSquareSize`) is modelled on the
  non-negative values that occur, following IEEE 754 binary64 with
  round-to-nearest-even.
-/

namespace Inclusion

/-! ## Machine integers -/

/-- A fixed-width Go integer type: its width in bits and whether it is signed. -/
structure IntType where
  bits : Nat
  signed : Bool
  deriving DecidableEq, Repr

namespace IntType

/-- Smallest value of the type. -/
def minVal (t : IntType) : Int :=
  if t.signed then -(2 ^ (t.bits - 1)) else 0

/-- Largest value of the type. -/
def maxVal (t : IntType) : Int :=
  if t.signed then 2 ^ (t.bits - 1) - 1 else 2 ^ t.bits - 1

/-- The value `x` is representable in the type. -/
def InRange (t : IntType) (x : Int) : Prop :=
  t.minVal ≤ x ∧ x ≤ t.maxVal

instance (t : IntType) (x : Int) : Decidable (t.InRange x) := by
  unfold InRange; exact inferInstance

/-- Two's complement wrap-around of a mathematical integer into the type. -/
def wrap (t : IntType) (x : Int) : Int :=
  if t.signed then (x + 2 ^ (t.bits - 1)) % 2 ^ t.bits - 2 ^ (t.bits - 1)
  else x % 2 ^ t.bits

/-- Exponent of the largest power of two the type can hold. -/
def topExp (t : IntType) : Nat :=
  if t.signed then t.bits - 2 else t.bits - 1

/-- The type has a positive value: at least one value bit besides the sign. -/
def Proper (t : IntType) : Prop :=
  if t.signed then 2 ≤ t.bits else 1 ≤ t.bits

instance (t : IntType) : Decidable t.Proper := by
  unfold Proper; exact inferInstance

end IntType

/-- Go's `int` (64-bit platforms). -/
def goInt : IntType := ⟨64, true⟩

/-- Go's `uint32`. -/
def goUint32 : IntType := ⟨32, false⟩

/-! ## Outcomes and errors -/

/-- Outcome of running a Go function. -/
inductive Exec (α : Type) where
  /-- the call returns -/
  | ret (a : α)
  /-- the call panics (integer division by zero) -/
  | panicked
  /-- the call never returns -/
  | diverges
  deriving DecidableEq, Repr

/-- Sequencing of outcomes. -/
def Exec.bind {α β : Type} (x : Exec α) (f : α → Exec β) : Exec β :=
  match x with
  | .ret a => f a
  | .panicked => .panicked
  | .diverges => .diverges

/-- The error values built by this file, one constructor per `fmt.Errorf`. -/
inductive GoError where
  /-- `"v cannot be 0"` -/
  | vCannotBeZero
  /-- `"input %v must be positive"` -/
  | inputMustBePositive (input : Int)
  /-- `"failed to round up cursor %d by multiple of %d: %w"` -/
  | failedToRoundUpCursor (cursor treeWidth : Int) (cause : GoError)
  /-- `"failed to calculate next share index: %w"` -/
  | failedToCalculateNextShareIndex (cause : GoError)
  deriving DecidableEq, Repr

/-! ## The functions of `blob_share_commitment_rules.go` -/

/-- `RoundUpByMultipleOf(cursor, v int) (int, error)`. -/
def RoundUpByMultipleOf (cursor v : Int) : Int × Option GoError :=
  if v = 0 then (0, some .vCannotBeZero)
  else if Int.tmod cursor v = 0 then (cursor, none)
  else (goInt.wrap (goInt.wrap (goInt.wrap (Int.tdiv cursor v) + 1) * v), none)

/-- The loop `for result < input { result <<= 1 }`, run for at most `fuel`
evaluations of the loop condition; `none` when the fuel runs out. -/
def RoundUpPowerOfTwo.loop (t : IntType) (input : Int) : Nat → Int → Option Int
  | 0, _ => none
  | fuel + 1, result =>
    if result < input then RoundUpPowerOfTwo.loop t input fuel (t.wrap (result * 2))
    else some result

/-- `RoundUpPowerOfTwo[I constraints.Integer](input I) I` at the integer type `t`. -/
def RoundUpPowerOfTwo (t : IntType) (input : Int) : Exec Int :=
  match RoundUpPowerOfTwo.loop t input (t.bits + 1) 1 with
  | some result => .ret result
  | none => .diverges

/-- `RoundDownPowerOfTwo[I constraints.Integer](input I) (I, error)` at the integer type `t`. -/
def RoundDownPowerOfTwo (t : IntType) (input : Int) : Exec (Int × Option GoError) :=
  if input ≤ 0 then .ret (0, some (.inputMustBePositive input))
  else
    (RoundUpPowerOfTwo t input).bind fun roundedUp =>
      if roundedUp = input then .ret (roundedUp, none)
      else .ret (t.wrap (Int.tdiv roundedUp 2), none)

/-- Position of the highest set bit of `n` (`0` for `n = 0`), by structural recursion on fuel. -/
def bitPos : Nat → Nat → Nat
  | 0, _ => 0
  | fuel + 1, n => if n < 2 then 0 else bitPos fuel (n / 2) + 1

/-- Floor of the square root of `n`, by bisection on the bits from `2 ^ k` downwards. -/
def isqrtAux (n : Nat) : Nat → Nat → Nat
  | 0, acc => if (acc + 1) * (acc + 1) ≤ n then acc + 1 else acc
  | k + 1, acc =>
    isqrtAux n k (if (acc + 2 ^ (k + 1)) * (acc + 2 ^ (k + 1)) ≤ n then acc + 2 ^ (k + 1) else acc)

/-- Floor of the square root of `n`. -/
def isqrt (n : Nat) : Nat := isqrtAux n (bitPos n n / 2 + 1) 0

/-- The conversion `float64(n)` of a non-negative `int`: `n` rounded to a
53-bit significand, ties to even.  The result is an integer. -/
def float64OfNat (n : Nat) : Nat :=
  if n < 2 ^ 53 then n
  else
    let k := bitPos n n - 52
    let q := n / 2 ^ k
    let r := n % 2 ^ k
    let q := if 2 ^ k < 2 * r ∨ (2 * r = 2 ^ k ∧ q % 2 = 1) then q + 1 else q
    q * 2 ^ k

/-- The call `math.Sqrt(x)` at an integer-valued `float64` `x ≥ 0`: the
correctly rounded square root.  The result `(m, p)` stands for the `float64`
`m / 2 ^ p`, with `2 ^ 52 ≤ m ≤ 2 ^ 53` unless `x = 0`.  (The square root of
a non-square integer is irrational, so no tie occurs.) -/
def mathSqrt (x : Nat) : Nat × Nat :=
  if x = 0 then (0, 0)
  else
    let p := (105 - bitPos x x) / 2
    let m := isqrt (x * 4 ^ p)
    let m := if m < x * 4 ^ p - m * m then m + 1 else m
    (m, p)

/-- The call `math.Ceil(y)` at a `float64` `y = m / 2 ^ p ≥ 0`. -/
def mathCeil (y : Nat × Nat) : Nat :=
  (y.1 + 2 ^ y.2 - 1) / 2 ^ y.2

/-- The expression `int(math.Ceil(math.Sqrt(float64(shareCount))))`.  For a
negative `shareCount` the square root is NaN and the conversion of NaN to `int`
is implementation-defined; the amd64 result (the smallest `int`) is used. -/
def ceilSqrtFloat (shareCount : Int) : Int :=
  if shareCount < 0 then goInt.minVal
  else (mathCeil (mathSqrt (float64OfNat shareCount.toNat)) : Nat)

/-- `BlobMinSquareSize(shareCount int) int`. -/
def BlobMinSquareSize (shareCount : Int) : Exec Int :=
  RoundUpPowerOfTwo goInt (ceilSqrtFloat shareCount)

/-- `getMin[T constraints.Integer](i, j T) T`. -/
def getMin (i j : Int) : Int :=
  if i < j then i else j

/-- `SubTreeWidth(shareCount, subtreeRootThreshold int) int`. -/
def SubTreeWidth (shareCount subtreeRootThreshold : Int) : Exec Int :=
  if subtreeRootThreshold = 0 then .panicked
  else
    let s := goInt.wrap (Int.tdiv shareCount subtreeRootThreshold)
    let s := if Int.tmod shareCount subtreeRootThreshold ≠ 0 then goInt.wrap (s + 1) else s
    (RoundUpPowerOfTwo goInt s).bind fun s =>
      (BlobMinSquareSize shareCount).bind fun m =>
        .ret (getMin s m)

/-- `NextShareIndex(cursor, blobShareLen, subtreeRootThreshold int) (int, error)`. -/
def NextShareIndex (cursor blobShareLen subtreeRootThreshold : Int) :
    Exec (Int × Option GoError) :=
  (SubTreeWidth blobShareLen subtreeRootThreshold).bind fun treeWidth =>
    match RoundUpByMultipleOf cursor treeWidth with
    | (_, some err) => .ret (0, some (.failedToRoundUpCursor cursor treeWidth err))
    | (roundedUpCursor, none) => .ret (roundedUpCursor, none)

/-- The `for i, blobLen := range blobShareLens` loop of
`BlobSharesUsedNonInteractiveDefaults`: the state is the cursor and the indexes
written so far; the result is the final state, or the error that made the
function return early. -/
def BlobSharesUsedNonInteractiveDefaults.loop (subtreeRootThreshold : Int) :
    Int → List Int → List Int → Exec (Except GoError (Int × List Int))
  | cursor, indexes, [] => .ret (.ok (cursor, indexes))
  | cursor, indexes, blobLen :: rest =>
    match NextShareIndex cursor blobLen subtreeRootThreshold with
    | .ret (_, some err) => .ret (.error err)
    | .ret (cursor, none) =>
      BlobSharesUsedNonInteractiveDefaults.loop subtreeRootThreshold
        (goInt.wrap (cursor + blobLen)) (indexes ++ [goUint32.wrap cursor]) rest
    | .panicked => .panicked
    | .diverges => .diverges

/-- `BlobSharesUsedNonInteractiveDefaults(cursor, subtreeRootThreshold int, blobShareLens ...int)
(sharesUsed int, indexes []uint32, err error)`.  A `nil` slice is the empty list. -/
def BlobSharesUsedNonInteractiveDefaults (cursor subtreeRootThreshold : Int)
    (blobShareLens : List Int) : Exec (Int × List Int × Option GoError) :=
  let start := cursor
  match BlobSharesUsedNonInteractiveDefaults.loop subtreeRootThreshold cursor [] blobShareLens with
  | .ret (.ok (cursor, indexes)) => .ret (goInt.wrap (cursor - start), indexes, none)
  | .ret (.error err) => .ret (0, [], some (.failedToCalculateNextShareIndex err))
  | .panicked => .panicked
  | .diverges => .diverges

/-- The loop of `BlobSharesUsedNonInteractiveDefaults` with the call
`NextShareIndex(cursor, blobLen, subtreeRootThreshold)` replaced by a call
`next cursor blobLen` of an arbitrary index planner. -/
def BlobSharesUsedNonInteractiveDefaults.loopWith
    (next : Int → Int → Exec (Int × Option GoError)) :
    Int → List Int → List Int → Exec (Except GoError (Int × List Int))
  | cursor, indexes, [] => .ret (.ok (cursor, indexes))
  | cursor, indexes, blobLen :: rest =>
    match next cursor blobLen with
    | .ret (_, some err) => .ret (.error err)
    | .ret (cursor, none) =>
      BlobSharesUsedNonInteractiveDefaults.loopWith next
        (goInt.wrap (cursor + blobLen)) (indexes ++ [goUint32.wrap cursor]) rest
    | .panicked => .panicked
    | .diverges => .diverges

/-- The body of `BlobSharesUsedNonInteractiveDefaults` around an arbitrary
index planner `next`; the function itself is the instance at `NextShareIndex`
(`BlobSharesUsedNonInteractiveDefaults_eq_with`). -/
def BlobSharesUsedNonInteractiveDefaultsWith
    (next : Int → Int → Exec (Int × Option GoError)) (cursor : Int)
    (blobShareLens : List Int) : Exec (Int × List Int × Option GoError) :=
  let start := cursor
  match BlobSharesUsedNonInteractiveDefaults.loopWith next cursor [] blobShareLens with
  | .ret (.ok (cursor, indexes)) => .ret (goInt.wrap (cursor - start), indexes, none)
  | .ret (.error err) => .ret (0, [], some (.failedToCalculateNextShareIndex err))
  | .panicked => .panicked
  | .diverges => .diverges

/-- An index planner that places a blob at the cursor and fails on a blob of 7 shares. -/
def failingPlanner (cursor blobLen : Int) : Exec (Int × Option GoError) :=
  if blobLen = 7 then .ret (0, some .vCannotBeZero) else .ret (cursor, none)

/-- Go's `int32`. -/
def goInt32 : IntType := ⟨32, true⟩

/-- Go's `uint64`. -/
def goUint64 : IntType := ⟨64, false⟩

/-! ## Vocabulary of the specification -/

/-- The integer `x` is a power of two. -/
def IsPowerOfTwo (x : Int) : Prop := ∃ k : Nat, x = 2 ^ k

/-! ## Reference definitions

Definitions over the natural numbers that follow the wording of the
specification (exact arithmetic, no machine integers, no floating point).  They
are what the code is compared with. -/

namespace Spec

/-- Reference: the ceiling of the square root of `n`. -/
def ceilSqrt (n : Nat) : Nat :=
  if isqrt n * isqrt n = n then isqrt n else isqrt n + 1

/-- The first of `p, 2 * p, 4 * p, ...` that is at least `n`, looking at `fuel + 1` of them. -/
def leastPowerOfTwoFrom (n : Nat) : Nat → Nat → Nat
  | 0, p => p
  | fuel + 1, p => if n ≤ p then p else leastPowerOfTwoFrom n fuel (2 * p)

/-- Reference: the smallest power of two that is at least `max n 1`. -/
def roundUpPowerOfTwo (n : Nat) : Nat :=
  leastPowerOfTwoFrom n n 1

/-- Reference: the smallest power-of-two side `s` with `s * s ≥ shareCount`,
as `roundUpPowerOfTwo (ceil (sqrt shareCount))`. -/
def blobMinSquareSize (shareCount : Nat) : Nat :=
  roundUpPowerOfTwo (ceilSqrt shareCount)

/-- Reference: the ceiling of `a / b`. -/
def ceilDiv (a b : Nat) : Nat :=
  (a + b - 1) / b

/-- Reference: `ceil (shareCount / threshold)` rounded up to a power of two,
clamped to the minimal square side of the blob. -/
def subTreeWidth (shareCount threshold : Nat) : Nat :=
  min (roundUpPowerOfTwo (ceilDiv shareCount threshold)) (blobMinSquareSize shareCount)

/-- Reference: the smallest multiple of `width` that is at least `cursor`. -/
def roundUpByMultipleOf (cursor width : Nat) : Nat :=
  ceilDiv cursor width * width

/-- Reference: the cursor aligned to the subtree width of the blob. -/
def nextShareIndex (cursor blobShareLen threshold : Nat) : Nat :=
  roundUpByMultipleOf cursor (subTreeWidth blobShareLen threshold)

/-- Reference: the cursor after placing the blobs one after the other, in
exact arithmetic ("where the placement ends"). -/
def placementEnd (threshold : Nat) : Nat → List Nat → Nat
  | cursor, [] => cursor
  | cursor, blobLen :: rest =>
    placementEnd threshold (nextShareIndex cursor blobLen threshold + blobLen) rest

/-- Reference: the index given to each blob, in input order. -/
def placementIndexes (threshold : Nat) : Nat → List Nat → List Nat
  | _, [] => []
  | cursor, blobLen :: rest =>
    nextShareIndex cursor blobLen threshold ::
      placementIndexes threshold (nextShareIndex cursor blobLen threshold + blobLen) rest

end Spec

/-- The list `indexes` holds one index per blob, each obtained by calling the
code's `NextShareIndex` at the cursor left by the blob before it (the index of
that blob plus its length; the starting cursor for the first blob), and
`final` is the cursor left by the last blob. -/
def IsPlacement (threshold : Int) : Int → List Int → List Int → Int → Prop
  | cursor, [], [], final => final = cursor
  | cursor, blobLen :: rest, index :: indexes, final =>
    NextShareIndex cursor blobLen threshold = .ret (index, none) ∧
      IsPlacement threshold (index + blobLen) rest indexes final
  | _, _ :: _, [], _ => False
  | _, [], _ :: _, _ => False

/-! ## Wrap-around -/

theorem IntType.two_pow_bits (t : IntType) (h : t.Proper) :
    (2 : Int) ^ t.bits = 2 * 2 ^ (t.bits - 1) := by
  have hb : 1 ≤ t.bits := by
    unfold IntType.Proper at h
    split at h <;> omega
  obtain ⟨b, hb'⟩ : ∃ b, t.bits = b + 1 := ⟨t.bits - 1, by omega⟩
  rw [hb', pow_succ]
  simp
  ring

theorem IntType.wrap_of_inRange (t : IntType) (h : t.Proper) (x : Int) (hx : t.InRange x) :
    t.wrap x = x := by
  have h2 := t.two_pow_bits h
  have hpos : (0 : Int) < 2 ^ (t.bits - 1) := by positivity
  obtain ⟨b, s⟩ := t
  cases s
  · simp only [IntType.InRange, IntType.minVal, IntType.maxVal, IntType.wrap,
      Bool.false_eq_true, if_false] at hx h2 hpos ⊢
    exact Int.emod_eq_of_lt (by omega) (by omega)
  · simp only [IntType.InRange, IntType.minVal, IntType.maxVal, IntType.wrap, if_true]
      at hx h2 hpos ⊢
    rw [Int.emod_eq_of_lt (by omega) (by omega)]
    omega

theorem IntType.wrap_periodic (t : IntType) (x k : Int) :
    t.wrap (x + 2 ^ t.bits * k) = t.wrap x := by
  obtain ⟨b, s⟩ := t
  cases s
  · simp only [IntType.wrap, Bool.false_eq_true, if_false]
    rw [Int.add_mul_emod_self_left]
  · simp only [IntType.wrap, if_true]
    rw [show x + 2 ^ b * k + 2 ^ (b - 1) = x + 2 ^ (b - 1) + 2 ^ b * k by ring,
      Int.add_mul_emod_self_left]

theorem IntType.wrap_eq_add (t : IntType) (x : Int) :
    ∃ q : Int, t.wrap x = x + 2 ^ t.bits * q := by
  obtain ⟨b, s⟩ := t
  cases s
  · simp only [IntType.wrap, Bool.false_eq_true, if_false]
    refine ⟨-(x / 2 ^ b), ?_⟩
    rw [Int.emod_def]; ring
  · simp only [IntType.wrap, if_true]
    refine ⟨-((x + 2 ^ (b - 1)) / 2 ^ b), ?_⟩
    rw [Int.emod_def]; ring

theorem IntType.wrap_wrap_mul (t : IntType) (x c : Int) :
    t.wrap (t.wrap x * c) = t.wrap (x * c) := by
  obtain ⟨q, hq⟩ := t.wrap_eq_add x
  rw [hq, show (x + 2 ^ t.bits * q) * c = x * c + 2 ^ t.bits * (q * c) by ring, t.wrap_periodic]

theorem IntType.inRange_two_pow (t : IntType) (h : t.Proper) (j : Nat) (hj : j ≤ t.topExp) :
    t.InRange (2 ^ j) := by
  have hpos : (0 : Int) < 2 ^ j := by positivity
  obtain ⟨b, s⟩ := t
  cases s
  · simp only [IntType.Proper, IntType.topExp, IntType.InRange, IntType.minVal, IntType.maxVal,
      Bool.false_eq_true, if_false] at h hj ⊢
    have h1 : (2 : Int) ^ j ≤ 2 ^ (b - 1) := pow_le_pow_right₀ (by norm_num) hj
    have h2 : (2 : Int) ^ b = 2 * 2 ^ (b - 1) := by
      rw [show b = (b - 1) + 1 by omega, pow_succ]; simp; ring
    have h3 : (0 : Int) < 2 ^ (b - 1) := by positivity
    constructor <;> omega
  · simp only [IntType.Proper, IntType.topExp, IntType.InRange, IntType.minVal, IntType.maxVal,
      if_true] at h hj ⊢
    have h1 : (2 : Int) ^ j ≤ 2 ^ (b - 2) := pow_le_pow_right₀ (by norm_num) hj
    have h2 : (2 : Int) ^ (b - 1) = 2 * 2 ^ (b - 2) := by
      rw [show b - 1 = (b - 2) + 1 by omega, pow_succ]; ring
    have h3 : (0 : Int) < 2 ^ (b - 2) := by positivity
    constructor <;> omega

theorem IntType.inRange_zero (t : IntType) : t.InRange 0 := by
  have hpos : (0 : Int) < 2 ^ (t.bits - 1) := by positivity
  have hpos2 : (0 : Int) < 2 ^ t.bits := by positivity
  unfold IntType.InRange IntType.minVal IntType.maxVal
  split <;> omega

theorem IntType.wrap_zero (t : IntType) (h : t.Proper) : t.wrap 0 = 0 :=
  t.wrap_of_inRange h 0 t.inRange_zero

theorem IntType.wrap_two_pow_bits_mul (t : IntType) (h : t.Proper) (k : Int) :
    t.wrap (2 ^ t.bits * k) = 0 := by
  have := t.wrap_periodic 0 k
  rw [zero_add] at this
  rw [this, t.wrap_zero h]

/-! ## The doubling loop -/

theorem RoundUpPowerOfTwo.loop_zero (t : IntType) (h : t.Proper) (input : Int) (hpos : 0 < input)
    (fuel : Nat) : RoundUpPowerOfTwo.loop t input fuel 0 = none := by
  induction fuel with
  | zero => rfl
  | succ n ih => simp [RoundUpPowerOfTwo.loop, hpos, t.wrap_zero h, ih]

/-- Once the loop has returned, more fuel does not change the result. -/
theorem RoundUpPowerOfTwo.loop_stable (t : IntType) (input : Int) (fuel : Nat) :
    ∀ (result r : Int) (more : Nat), RoundUpPowerOfTwo.loop t input fuel result = some r →
      RoundUpPowerOfTwo.loop t input (fuel + more) result = some r := by
  induction fuel with
  | zero => intro result r more h; simp [RoundUpPowerOfTwo.loop] at h
  | succ n ih =>
    intro result r more h
    rw [show n + 1 + more = (n + more) + 1 by omega]
    simp only [RoundUpPowerOfTwo.loop] at h ⊢
    split
    · rename_i hlt
      rw [if_pos hlt] at h
      exact ih _ _ _ h
    · rename_i hlt
      rw [if_neg hlt] at h
      exact h

theorem RoundUpPowerOfTwo.loop_forever_aux (t : IntType) (h : t.Proper) (input : Int) (n : Nat) :
    ∀ y : Int, RoundUpPowerOfTwo.loop t input (n + 1) (t.wrap y) = none →
      t.wrap (y * 2 ^ n) = 0 → ∀ fuel, RoundUpPowerOfTwo.loop t input fuel (t.wrap y) = none := by
  induction n with
  | zero =>
    intro y h1 h0 fuel
    rw [pow_zero, mul_one] at h0
    rw [h0] at h1 ⊢
    have hpos : 0 < input := by
      by_contra hc
      simp [RoundUpPowerOfTwo.loop, hc] at h1
    exact RoundUpPowerOfTwo.loop_zero t h input hpos fuel
  | succ n ih =>
    intro y h1 h0 fuel
    have hlt : t.wrap y < input := by
      by_contra hc
      simp [RoundUpPowerOfTwo.loop, hc] at h1
    have h2 : RoundUpPowerOfTwo.loop t input (n + 1) (t.wrap (y * 2)) = none := by
      rw [RoundUpPowerOfTwo.loop, if_pos hlt, t.wrap_wrap_mul] at h1
      exact h1
    have h3 := ih (y * 2) h2 (by rw [← h0]; congr 1; ring)
    cases fuel with
    | zero => rfl
    | succ f => rw [RoundUpPowerOfTwo.loop, if_pos hlt, t.wrap_wrap_mul]; exact h3 f

/-- The fuel used by `RoundUpPowerOfTwo` is exact: if the loop has not returned
after `t.bits + 1` tests of its condition, then it never returns. -/
theorem RoundUpPowerOfTwo.loop_forever (t : IntType) (h : t.Proper) (input : Int)
    (hnone : RoundUpPowerOfTwo.loop t input (t.bits + 1) 1 = none) (fuel : Nat) :
    RoundUpPowerOfTwo.loop t input fuel 1 = none := by
  have h1 : t.wrap 1 = 1 := by
    have := t.wrap_of_inRange h (2 ^ 0) (t.inRange_two_pow h 0 (Nat.zero_le _))
    simpa using this
  have := RoundUpPowerOfTwo.loop_forever_aux t h input t.bits 1 (by rw [h1]; exact hnone)
    (by rw [one_mul]; simpa using t.wrap_two_pow_bits_mul h 1) fuel
  rw [h1] at this
  exact this

/-- The doubling loop started at `2 ^ j` with enough fuel returns the least
power of two at or above the input, provided the input does not exceed the
largest power of two of the type. -/
theorem RoundUpPowerOfTwo.loop_spec (t : IntType) (h : t.Proper) (input : Int)
    (hin : input ≤ 2 ^ t.topExp) (fuel : Nat) :
    ∀ j : Nat, j ≤ t.topExp → t.topExp - j < fuel → (j = 0 ∨ (2 : Int) ^ (j - 1) < input) →
      ∃ k : Nat, k ≤ t.topExp ∧ RoundUpPowerOfTwo.loop t input fuel (2 ^ j) = some (2 ^ k) ∧
        input ≤ 2 ^ k ∧ (k = 0 ∨ (2 : Int) ^ (k - 1) < input) := by
  induction fuel with
  | zero => intro j _ hf; omega
  | succ n ih =>
    intro j hj hf hlow
    by_cases hlt : (2 : Int) ^ j < input
    · have hj' : j < t.topExp := by
        by_contra hc
        have : (2 : Int) ^ t.topExp ≤ 2 ^ j := pow_le_pow_right₀ (by norm_num) (by omega)
        omega
      have hw : t.wrap (2 ^ j * 2) = 2 ^ (j + 1) := by
        rw [← pow_succ]
        exact t.wrap_of_inRange h _ (t.inRange_two_pow h (j + 1) hj')
      obtain ⟨k, hk, hloop, hge, hmin⟩ := ih (j + 1) hj' (by omega) (Or.inr (by simpa using hlt))
      exact ⟨k, hk, by rw [RoundUpPowerOfTwo.loop, if_pos hlt, hw]; exact hloop, hge, hmin⟩
    · exact ⟨j, hj, by rw [RoundUpPowerOfTwo.loop, if_neg hlt], by omega, hlow⟩

theorem IntType.two_pow_topExp_pos (t : IntType) : (0 : Int) < 2 ^ t.topExp := by positivity

theorem RoundUpPowerOfTwo.loop_top (t : IntType) (h : t.Proper) (input : Int)
    (hin : 2 ^ t.topExp < input) (fuel : Nat) :
    RoundUpPowerOfTwo.loop t input fuel (t.wrap (2 ^ t.topExp * 2)) = none := by
  have hpos : (0 : Int) < input := lt_trans t.two_pow_topExp_pos hin
  obtain ⟨b, s⟩ := t
  cases s
  · simp only [IntType.Proper, IntType.topExp, Bool.false_eq_true, if_false] at h hin ⊢
    have : (2 : Int) ^ (b - 1) * 2 = 2 ^ (IntType.mk b false).bits * 1 := by
      rw [← pow_succ, mul_one]; congr 1; simp; omega
    rw [this, IntType.wrap_two_pow_bits_mul _ (by simpa [IntType.Proper] using h)]
    exact RoundUpPowerOfTwo.loop_zero _ (by simpa [IntType.Proper] using h) input hpos fuel
  · simp only [IntType.Proper, IntType.topExp, if_true] at h hin ⊢
    have hP : (IntType.mk b true).Proper := by simpa [IntType.Proper] using h
    have e1 : (2 : Int) ^ (b - 2) * 2 = 2 ^ (b - 1) := by
      rw [← pow_succ]; congr 1; omega
    have e2 : (2 : Int) ^ b = 2 * 2 ^ (b - 1) := by
      simpa using (IntType.mk b true).two_pow_bits hP
    have hp1 : (0 : Int) < 2 ^ (b - 1) := by positivity
    have hw : (IntType.mk b true).wrap (2 ^ (b - 1)) = -(2 ^ (b - 1)) := by
      simp only [IntType.wrap, if_true]
      rw [show (2 : Int) ^ (b - 1) + 2 ^ (b - 1) = 0 + 2 ^ b * 1 by rw [e2]; ring,
        Int.add_mul_emod_self_left]
      simp
    rw [e1, hw]
    cases fuel with
    | zero => rfl
    | succ f =>
      rw [RoundUpPowerOfTwo.loop, if_pos (by omega)]
      have : -(2 : Int) ^ (b - 1) * 2 = 2 ^ (IntType.mk b true).bits * (-1) := by
        simp only []; rw [e2]; ring
      rw [this, IntType.wrap_two_pow_bits_mul _ hP]
      exact RoundUpPowerOfTwo.loop_zero _ hP input hpos f

theorem RoundUpPowerOfTwo.loop_above_top (t : IntType) (h : t.Proper) (input : Int)
    (hin : 2 ^ t.topExp < input) (d : Nat) :
    ∀ j fuel : Nat, j + d = t.topExp → RoundUpPowerOfTwo.loop t input fuel (2 ^ j) = none := by
  induction d with
  | zero =>
    intro j fuel hj
    have hj' : j = t.topExp := by omega
    subst hj'
    cases fuel with
    | zero => rfl
    | succ f =>
      rw [RoundUpPowerOfTwo.loop, if_pos hin]
      exact RoundUpPowerOfTwo.loop_top t h input hin f
  | succ d ih =>
    intro j fuel hj
    cases fuel with
    | zero => rfl
    | succ f =>
      have hlt : (2 : Int) ^ j < input :=
        lt_of_le_of_lt (pow_le_pow_right₀ (by norm_num) (by omega)) hin
      have hw : t.wrap (2 ^ j * 2) = 2 ^ (j + 1) := by
        rw [← pow_succ]
        exact t.wrap_of_inRange h _ (t.inRange_two_pow h (j + 1) (by omega))
      rw [RoundUpPowerOfTwo.loop, if_pos hlt, hw]
      exact ih (j + 1) f (by omega)

/-- Above the largest power of two of the type the doubling loop never exits. -/
theorem RoundUpPowerOfTwo.loop_diverges (t : IntType) (h : t.Proper) (input : Int)
    (hin : 2 ^ t.topExp < input) (fuel : Nat) :
    RoundUpPowerOfTwo.loop t input fuel 1 = none := by
  have := RoundUpPowerOfTwo.loop_above_top t h input hin t.topExp 0 fuel (by omega)
  simpa using this

theorem RoundUpPowerOfTwo_diverges (t : IntType) (h : t.Proper) (input : Int)
    (hin : 2 ^ t.topExp < input) : RoundUpPowerOfTwo t input = .diverges := by
  unfold RoundUpPowerOfTwo
  rw [RoundUpPowerOfTwo.loop_diverges t h input hin]

/-- Below or at the largest power of two of the type, `RoundUpPowerOfTwo`
returns `2 ^ k` for the least `k` with `input ≤ 2 ^ k`. -/
theorem RoundUpPowerOfTwo_returns (t : IntType) (h : t.Proper) (input : Int)
    (hin : input ≤ 2 ^ t.topExp) :
    ∃ k : Nat, k ≤ t.topExp ∧ RoundUpPowerOfTwo t input = .ret (2 ^ k) ∧
      input ≤ 2 ^ k ∧ (k = 0 ∨ (2 : Int) ^ (k - 1) < input) := by
  have hb : t.topExp - 0 < t.bits + 1 := by
    unfold IntType.topExp; split <;> omega
  obtain ⟨k, hk, hloop, hge, hmin⟩ :=
    RoundUpPowerOfTwo.loop_spec t h input hin (t.bits + 1) 0 (Nat.zero_le _) hb (Or.inl rfl)
  refine ⟨k, hk, ?_, hge, hmin⟩
  unfold RoundUpPowerOfTwo
  rw [pow_zero] at hloop
  rw [hloop]

/-- C1 (amended): at every integer type, for every input `x` that does not
exceed the largest power of two of the type, `RoundUpPowerOfTwo(x)` returns a
power of two that is at least `max(x, 1)`, is the least power of two with that
property, and is `1` when `x ≤ 1` (negative `x` included). -/
theorem RoundUpPowerOfTwo_least_power_of_two (t : IntType) (ht : t.Proper) (x : Int)
    (hx : x ≤ 2 ^ t.topExp) :
    ∃ r : Int, RoundUpPowerOfTwo t x = .ret r ∧ IsPowerOfTwo r ∧ max x 1 ≤ r ∧
      (∀ p : Int, IsPowerOfTwo p → max x 1 ≤ p → r ≤ p) ∧ (x ≤ 1 → r = 1) := by
  obtain ⟨k, _, hret, hge, hmin⟩ := RoundUpPowerOfTwo_returns t ht x hx
  have hone : (1 : Int) ≤ 2 ^ k := one_le_pow₀ (by norm_num)
  refine ⟨2 ^ k, hret, ⟨k, rfl⟩, max_le hge hone, ?_, ?_⟩
  · rintro p ⟨j, rfl⟩ hp
    rcases hmin with rfl | hlt
    · simpa using (one_le_pow₀ (by norm_num) : (1 : Int) ≤ 2 ^ j)
    · have h1 : (2 : Int) ^ (k - 1) < 2 ^ j := lt_of_lt_of_le hlt (le_trans (le_max_left _ _) hp)
      have h2 : k - 1 < j := (pow_lt_pow_iff_right₀ (by norm_num)).mp h1
      exact pow_le_pow_right₀ (by norm_num) (by omega)
  · intro hx1
    rcases hmin with rfl | hlt
    · simp
    · have : (1 : Int) ≤ 2 ^ (k - 1) := one_le_pow₀ (by norm_num)
      omega

/-- C1, witness of the amended statement at `int` and `x = 5`. -/
theorem RoundUpPowerOfTwo_least_power_of_two_witness :
    (5 : Int) ≤ 2 ^ goInt.topExp ∧
    ∃ r : Int, RoundUpPowerOfTwo goInt 5 = .ret r ∧ IsPowerOfTwo r ∧ max 5 1 ≤ r ∧
      (∀ p : Int, IsPowerOfTwo p → max 5 1 ≤ p → r ≤ p) ∧ ((5 : Int) ≤ 1 → r = 1) :=
  ⟨by decide, RoundUpPowerOfTwo_least_power_of_two goInt (by decide) 5 (by decide)⟩

/-- C1, counterexample to the statement for every integer: at the `int` value
`2 ^ 62 + 1` the doubling loop never exits, so no value is returned. -/
theorem RoundUpPowerOfTwo_above_top_counterexample :
    goInt.InRange (2 ^ 62 + 1) ∧
    (∀ fuel : Nat, RoundUpPowerOfTwo.loop goInt (2 ^ 62 + 1) fuel 1 = none) ∧
    ¬ ∃ r : Int, RoundUpPowerOfTwo goInt (2 ^ 62 + 1) = .ret r :=
  ⟨by decide, RoundUpPowerOfTwo.loop_diverges goInt (by decide) _ (by decide),
    by rw [RoundUpPowerOfTwo_diverges goInt (by decide) _ (by decide)]; simp⟩

/-! ## `RoundDownPowerOfTwo` -/

/-- For a positive input that does not exceed the largest power of two of the
type, `RoundDownPowerOfTwo` returns `2 ^ k` with `2 ^ k ≤ input < 2 ^ (k + 1)`. -/
theorem RoundDownPowerOfTwo_returns (t : IntType) (h : t.Proper) (input : Int)
    (hpos : 0 < input) (hin : input ≤ 2 ^ t.topExp) :
    ∃ k : Nat, RoundDownPowerOfTwo t input = .ret (2 ^ k, none) ∧
      (2 : Int) ^ k ≤ input ∧ input < 2 ^ (k + 1) := by
  obtain ⟨k, hk, hret, hge, hmin⟩ := RoundUpPowerOfTwo_returns t h input hin
  unfold RoundDownPowerOfTwo
  rw [if_neg (by omega), hret]
  simp only [Exec.bind]
  by_cases heq : (2 : Int) ^ k = input
  · refine ⟨k, by rw [if_pos heq], by omega, ?_⟩
    rw [← heq, pow_succ]
    have : (0 : Int) < 2 ^ k := by positivity
    omega
  · rcases hmin with rfl | hlt
    · simp at hge heq; omega
    · obtain ⟨j, rfl⟩ : ∃ j, k = j + 1 := by
        rcases k with _ | j
        · simp at hge heq; omega
        · exact ⟨j, rfl⟩
      have hdiv : Int.tdiv ((2 : Int) ^ (j + 1)) 2 = 2 ^ j := by
        rw [pow_succ, Int.tdiv_eq_ediv (by positivity) (by norm_num)]
        simp
      have hw : t.wrap (2 ^ j) = 2 ^ j :=
        t.wrap_of_inRange h _ (t.inRange_two_pow h j (by omega))
      refine ⟨j, by rw [if_neg heq, hdiv, hw], ?_, by omega⟩
      simpa using hlt.le

/-- For a non-positive input `RoundDownPowerOfTwo` returns an error. -/
theorem RoundDownPowerOfTwo_error (t : IntType) (input : Int) (h : input ≤ 0) :
    RoundDownPowerOfTwo t input = .ret (0, some (.inputMustBePositive input)) := by
  unfold RoundDownPowerOfTwo
  rw [if_pos h]

/-- C2, the code at the failing input: `2 ^ 62 + 1` is a positive `int` and
`2 ^ 62` is the largest power of two below it, but `RoundDownPowerOfTwo` first
rounds up, the doubling loop of `RoundUpPowerOfTwo` never exits (for any amount
of fuel), and so the call never returns. -/
theorem RoundDownPowerOfTwo_above_top_diverges :
    goInt.InRange (2 ^ 62 + 1) ∧ (0 : Int) < 2 ^ 62 + 1 ∧
    goInt.InRange (2 ^ 62) ∧ (2 : Int) ^ 62 ≤ 2 ^ 62 + 1 ∧ (2 : Int) ^ 62 + 1 < 2 ^ 63 ∧
    (∀ fuel : Nat, RoundUpPowerOfTwo.loop goInt (2 ^ 62 + 1) fuel 1 = none) ∧
    RoundDownPowerOfTwo goInt (2 ^ 62 + 1) = .diverges := by
  refine ⟨by decide, by decide, by decide, by decide, by decide,
    RoundUpPowerOfTwo.loop_diverges goInt (by decide) _ (by decide), ?_⟩
  unfold RoundDownPowerOfTwo
  rw [if_neg (by decide), RoundUpPowerOfTwo_diverges goInt (by decide) _ (by decide)]
  rfl

/-! ## `RoundUpByMultipleOf` -/

theorem goInt_wrap_of_bounds (x : Int) (h0 : 0 ≤ x) (h1 : x ≤ goInt.maxVal) :
    goInt.wrap x = x := by
  apply goInt.wrap_of_inRange (by decide)
  refine ⟨?_, h1⟩
  have : goInt.minVal ≤ 0 := by decide
  omega

/-- What `RoundUpByMultipleOf` returns for a non-negative cursor and a positive
width when some multiple of the width at or above the cursor is representable. -/
theorem RoundUpByMultipleOf_returns (cursor width : Int) (hc : 0 ≤ cursor) (hw : 0 < width)
    (hfit : ∃ m : Int, cursor ≤ m * width ∧ m * width ≤ goInt.maxVal) :
    ∃ r : Int, RoundUpByMultipleOf cursor width = (r, none) ∧ goInt.InRange r ∧
      r % width = 0 ∧ cursor ≤ r ∧ r < cursor + width ∧
      (∀ m : Int, cursor ≤ m * width → r ≤ m * width) ∧ (cursor % width = 0 → r = cursor) := by
  obtain ⟨m, hm1, hm2⟩ := hfit
  have hmin : goInt.minVal ≤ 0 := by decide
  have hdiv : Int.tdiv cursor width = cursor / width := Int.tdiv_eq_ediv hc hw.le
  have hmod : Int.tmod cursor width = cursor % width := Int.tmod_eq_emod hc hw.le
  have hdm : width * (cursor / width) + cursor % width = cursor := Int.ediv_add_emod cursor width
  have hr0 : 0 ≤ cursor % width := Int.emod_nonneg _ (by omega)
  have hr1 : cursor % width < width := Int.emod_lt_of_pos _ hw
  have hq0 : 0 ≤ cursor / width := Int.ediv_nonneg hc hw.le
  unfold RoundUpByMultipleOf
  rw [if_neg (by omega), hmod, hdiv]
  by_cases hz : cursor % width = 0
  · rw [if_pos hz]
    refine ⟨cursor, rfl, ⟨by omega, ?_⟩, hz, le_refl _, by omega, fun k hk => hk, fun _ => rfl⟩
    exact le_trans hm1 hm2
  · rw [if_neg hz]
    have hmul : (cursor / width + 1) * width = cursor + (width - cursor % width) := by
      have : (cursor / width + 1) * width = width * (cursor / width) + width := by ring
      omega
    -- any multiple at or above the cursor is at or above the next multiple
    have hnext : ∀ k : Int, cursor ≤ k * width → (cursor / width + 1) * width ≤ k * width := by
      intro k hk
      have hk1 : cursor / width < k := by
        by_contra hcon
        have : k * width ≤ cursor / width * width :=
          Int.mul_le_mul_of_nonneg_right (by omega) hw.le
        have h2 : cursor / width * width = width * (cursor / width) := by ring
        omega
      exact Int.mul_le_mul_of_nonneg_right (by omega) hw.le
    have hfin : (cursor / width + 1) * width ≤ goInt.maxVal := le_trans (hnext m hm1) hm2
    have hq1 : cursor / width + 1 ≤ (cursor / width + 1) * width := by
      have := Int.mul_le_mul_of_nonneg_left (show (1 : Int) ≤ width by omega)
        (show (0 : Int) ≤ cursor / width + 1 by omega)
      simpa using this
    rw [goInt_wrap_of_bounds (cursor / width) hq0 (by omega),
      goInt_wrap_of_bounds (cursor / width + 1) (by omega) (by omega),
      goInt_wrap_of_bounds _ (by omega) hfin]
    refine ⟨_, rfl, ⟨by omega, hfin⟩, Int.mul_emod_left _ _, by omega, by omega, hnext, ?_⟩
    intro h; exact absurd h hz

/-- C3 (amended): for every cursor ≥ 0 and every width > 0 for which some
multiple of the width at or above the cursor is representable in `int`,
`RoundUpByMultipleOf(cursor, width)` succeeds with a result `r` such that
`r mod width = 0` and `cursor ≤ r < cursor + width`; `r` is the smallest
multiple of the width that is at least the cursor, and `r = cursor` when the
cursor is already a multiple. -/
theorem RoundUpByMultipleOf_smallest_multiple (cursor width : Int) (hc : 0 ≤ cursor)
    (hw : 0 < width) (hfit : ∃ m : Int, cursor ≤ m * width ∧ m * width ≤ goInt.maxVal) :
    ∃ r : Int, RoundUpByMultipleOf cursor width = (r, none) ∧
      r % width = 0 ∧ cursor ≤ r ∧ r < cursor + width ∧
      (∀ m : Int, cursor ≤ m * width → r ≤ m * width) ∧ (cursor % width = 0 → r = cursor) := by
  obtain ⟨r, h1, _, h2⟩ := RoundUpByMultipleOf_returns cursor width hc hw hfit
  exact ⟨r, h1, h2⟩

/-- C3, witness of the amended statement at cursor 33 and width 16. -/
theorem RoundUpByMultipleOf_smallest_multiple_witness :
    (0 : Int) ≤ 33 ∧ (0 : Int) < 16 ∧
    (∃ m : Int, 33 ≤ m * 16 ∧ m * 16 ≤ goInt.maxVal) ∧
    ∃ r : Int, RoundUpByMultipleOf 33 16 = (r, none) ∧
      r % 16 = 0 ∧ 33 ≤ r ∧ r < 33 + 16 ∧
      (∀ m : Int, 33 ≤ m * 16 → r ≤ m * 16) ∧ ((33 : Int) % 16 = 0 → r = 33) :=
  ⟨by decide, by decide, ⟨3, by decide, by decide⟩,
    RoundUpByMultipleOf_smallest_multiple 33 16 (by decide) (by decide)
      ⟨3, by decide, by decide⟩⟩

/-- C3, counterexample to the statement for every cursor ≥ 0 and width > 0:
at the largest `int` and width 2 the product wraps around, and the result is
below the cursor. -/
theorem RoundUpByMultipleOf_wraps_counterexample :
    goInt.InRange (2 ^ 63 - 1) ∧ goInt.InRange 2 ∧ (0 : Int) ≤ 2 ^ 63 - 1 ∧ (0 : Int) < 2 ∧
    RoundUpByMultipleOf (2 ^ 63 - 1) 2 = (-(2 ^ 63), none) ∧
    ¬ ((2 : Int) ^ 63 - 1 ≤ -(2 ^ 63)) := by
  decide

/-- The error result of `RoundUpByMultipleOf` is non-nil exactly for `v = 0`. -/
theorem RoundUpByMultipleOf_err_ne_none (cursor v : Int) :
    (RoundUpByMultipleOf cursor v).2 ≠ none ↔ v = 0 := by
  unfold RoundUpByMultipleOf
  by_cases hv : v = 0
  · simp [hv]
  · rw [if_neg hv]
    split <;> simp [hv]

/-- C4: for every cursor and every `v`, `RoundUpByMultipleOf(cursor, v)`
returns an error if and only if `v = 0`. -/
theorem RoundUpByMultipleOf_error_iff (cursor v : Int) :
    (∃ e : GoError, (RoundUpByMultipleOf cursor v).2 = some e) ↔ v = 0 := by
  rw [← RoundUpByMultipleOf_err_ne_none cursor v, ← Option.isSome_iff_exists,
    Option.ne_none_iff_isSome]

/-! ## Bit position and integer square root -/

theorem bitPos_spec (fuel : Nat) : ∀ n : Nat, 0 < n → n < 2 ^ fuel →
    2 ^ bitPos fuel n ≤ n ∧ n < 2 ^ (bitPos fuel n + 1) := by
  induction fuel with
  | zero => intro n h0 h1; simp at h1; omega
  | succ f ih =>
    intro n h0 h1
    unfold bitPos
    by_cases h2 : n < 2
    · rw [if_pos h2]; simp; omega
    · rw [if_neg h2]
      have hf : n / 2 < 2 ^ f := by
        rw [pow_succ] at h1; omega
      obtain ⟨a, b⟩ := ih (n / 2) (by omega) hf
      rw [pow_succ 2 (bitPos f (n / 2) + 1)] at *
      rw [pow_succ 2 (bitPos f (n / 2))]
      constructor <;> omega

theorem bitPos_self (n : Nat) (h : 0 < n) :
    2 ^ bitPos n n ≤ n ∧ n < 2 ^ (bitPos n n + 1) :=
  bitPos_spec n n h (Nat.lt_two_pow n)

theorem bitPos_lt (n k : Nat) (h : n < 2 ^ k) : bitPos n n < k ∨ n = 0 := by
  rcases Nat.eq_zero_or_pos n with h0 | h0
  · exact Or.inr h0
  · left
    have := (bitPos_self n h0).1
    have h2 : 2 ^ bitPos n n < 2 ^ k := lt_of_le_of_lt this h
    exact (Nat.pow_lt_pow_iff_right (by norm_num)).mp h2

theorem bitPos_ge (n k : Nat) (h : 2 ^ k ≤ n) : k ≤ bitPos n n := by
  have h0 : 0 < n := lt_of_lt_of_le (by positivity) h
  have := (bitPos_self n h0).2
  have h2 : 2 ^ k < 2 ^ (bitPos n n + 1) := lt_of_le_of_lt h this
  have := (Nat.pow_lt_pow_iff_right (by norm_num)).mp h2
  omega

theorem isqrtAux_spec (n : Nat) (k : Nat) : ∀ acc : Nat, acc * acc ≤ n →
    n < (acc + 2 ^ (k + 1)) * (acc + 2 ^ (k + 1)) →
    isqrtAux n k acc * isqrtAux n k acc ≤ n ∧
      n < (isqrtAux n k acc + 1) * (isqrtAux n k acc + 1) := by
  induction k with
  | zero =>
    intro acc h1 h2
    unfold isqrtAux
    split
    · rename_i h
      refine ⟨h, ?_⟩
      have : acc + 2 ^ (0 + 1) = acc + 1 + 1 := by norm_num
      rw [this] at h2; exact h2
    · rename_i h
      exact ⟨h1, by omega⟩
  | succ k ih =>
    intro acc h1 h2
    unfold isqrtAux
    split
    · rename_i h
      apply ih _ h
      have : acc + 2 ^ (k + 1) + 2 ^ (k + 1) = acc + 2 ^ (k + 1 + 1) := by
        rw [pow_succ 2 (k + 1)]; omega
      rw [this]; exact h2
    · rename_i h
      exact ih _ h1 (by omega)

theorem isqrt_spec (n : Nat) : isqrt n * isqrt n ≤ n ∧ n < (isqrt n + 1) * (isqrt n + 1) := by
  unfold isqrt
  apply isqrtAux_spec n _ 0 (by simp)
  rcases Nat.eq_zero_or_pos n with h0 | h0
  · subst h0; positivity
  · have h1 := (bitPos_self n h0).2
    refine lt_of_lt_of_le h1 ?_
    rw [zero_add, ← pow_add]
    apply Nat.pow_le_pow_right (by norm_num)
    omega

theorem isqrt_eq_sqrt (n : Nat) : isqrt n = Nat.sqrt n :=
  Nat.eq_sqrt.mpr (isqrt_spec n)

/-! ## The `float64` square root -/

theorem float64OfNat_le (n : Nat) (h : n < 2 ^ 63) : float64OfNat n ≤ 2 ^ 63 := by
  unfold float64OfNat
  split
  · omega
  · rename_i h53
    have h0 : 0 < n := by
      have : 0 < 2 ^ 53 := by positivity
      omega
    obtain ⟨hb1, hb2⟩ := bitPos_self n h0
    have hb53 : 53 ≤ bitPos n n := bitPos_ge n 53 (by omega)
    have hb63 : bitPos n n < 63 := by
      rcases bitPos_lt n 63 h with h' | h'
      · exact h'
      · omega
    simp only []
    generalize hk : bitPos n n - 52 = k
    have hkb : bitPos n n + 1 = 53 + k := by omega
    rw [hkb, pow_add] at hb2
    have hq : n / 2 ^ k < 2 ^ 53 := by
      rw [Nat.div_lt_iff_lt_mul (by positivity)]; exact hb2
    have hq' : (if 2 ^ k < 2 * (n % 2 ^ k) ∨ 2 * (n % 2 ^ k) = 2 ^ k ∧ n / 2 ^ k % 2 = 1
        then n / 2 ^ k + 1 else n / 2 ^ k) ≤ 2 ^ 53 := by
      split <;> omega
    calc _ ≤ 2 ^ 53 * 2 ^ k := Nat.mul_le_mul_right _ hq'
      _ = 2 ^ (53 + k) := by rw [pow_add]
      _ ≤ 2 ^ 63 := Nat.pow_le_pow_right (by norm_num) (by omega)

theorem mathCeil_mathSqrt_le (x : Nat) (h : x ≤ 2 ^ 63) : mathCeil (mathSqrt x) ≤ 2 ^ 32 := by
  unfold mathSqrt
  split
  · simp [mathCeil]
  · simp only [mathCeil]
    generalize (105 - bitPos x x) / 2 = p
    have hP : 0 < 2 ^ p := by positivity
    have hm : isqrt (x * 4 ^ p) < 2 ^ 32 * 2 ^ p := by
      rw [isqrt_eq_sqrt, Nat.sqrt_lt']
      have : (4 : Nat) ^ p = 2 ^ p * 2 ^ p := by
        rw [← mul_pow]; norm_num
      rw [this]
      calc x * (2 ^ p * 2 ^ p) ≤ 2 ^ 63 * (2 ^ p * 2 ^ p) := Nat.mul_le_mul_right _ h
        _ < 2 ^ 64 * (2 ^ p * 2 ^ p) := Nat.mul_lt_mul_of_pos_right (by norm_num) (by positivity)
        _ = (2 ^ 32 * 2 ^ p) ^ 2 := by ring
    have hM : (if isqrt (x * 4 ^ p) < x * 4 ^ p - isqrt (x * 4 ^ p) * isqrt (x * 4 ^ p)
        then isqrt (x * 4 ^ p) + 1 else isqrt (x * 4 ^ p)) ≤ 2 ^ 32 * 2 ^ p := by
      split <;> omega
    rw [Nat.div_le_iff_le_mul_add_pred hP]
    omega

/-- On every non-negative `int` the float expression is at most `2 ^ 32`. -/
theorem ceilSqrtFloat_le (shareCount : Int) (h : goInt.InRange shareCount) :
    ceilSqrtFloat shareCount ≤ 2 ^ 32 := by
  unfold ceilSqrtFloat
  split
  · decide
  · rename_i h0
    have hmax : shareCount ≤ 2 ^ 63 - 1 := h.2
    have hn : shareCount.toNat < 2 ^ 63 := by omega
    have := mathCeil_mathSqrt_le _ (float64OfNat_le _ hn)
    exact_mod_cast this

/-- Below `2 ^ 52` the float expression is the exact ceiling of the square root. -/
theorem mathCeil_mathSqrt_exact (n : Nat) (h : n ≤ 2 ^ 52) :
    mathCeil (mathSqrt (float64OfNat n)) = Spec.ceilSqrt n := by
  have hF : float64OfNat n = n := by
    unfold float64OfNat; rw [if_pos (by omega)]
  rw [hF]
  obtain ⟨hk1, hk2⟩ := isqrt_spec n
  unfold mathSqrt Spec.ceilSqrt
  by_cases h0 : n = 0
  · subst h0
    have : isqrt 0 = 0 := by
      have := (isqrt_spec 0).1
      rcases Nat.eq_zero_or_pos (isqrt 0) with h | h
      · exact h
      · nlinarith
    simp [mathCeil, this]
  rw [if_neg h0]
  simp only [mathCeil]
  generalize hp : (105 - bitPos n n) / 2 = p
  generalize hk : isqrt n = k at hk1 hk2 ⊢
  have hP : 0 < 2 ^ p := by positivity
  have h4 : (4 : Nat) ^ p = 2 ^ p * 2 ^ p := by rw [← mul_pow]; norm_num
  have hlo : k * 2 ^ p ≤ isqrt (n * 4 ^ p) := by
    rw [isqrt_eq_sqrt, Nat.le_sqrt', h4]
    calc (k * 2 ^ p) ^ 2 = (k * k) * (2 ^ p * 2 ^ p) := by ring
      _ ≤ n * (2 ^ p * 2 ^ p) := Nat.mul_le_mul_right _ hk1
  have hhi : isqrt (n * 4 ^ p) < (k + 1) * 2 ^ p := by
    rw [isqrt_eq_sqrt, Nat.sqrt_lt', h4]
    calc n * (2 ^ p * 2 ^ p) < ((k + 1) * (k + 1)) * (2 ^ p * 2 ^ p) :=
          Nat.mul_lt_mul_of_pos_right hk2 (by positivity)
      _ = ((k + 1) * 2 ^ p) ^ 2 := by ring
  obtain ⟨hm1, hm2⟩ := isqrt_spec (n * 4 ^ p)
  generalize hm : isqrt (n * 4 ^ p) = m at hlo hhi hm1 hm2 ⊢
  by_cases hsq : k * k = n
  · rw [if_pos hsq]
    have hmeq : m = k * 2 ^ p := by
      have : (k * 2 ^ p) * (k * 2 ^ p) = n * 4 ^ p := by rw [h4, ← hsq]; ring
      have h1 : m * m ≤ (k * 2 ^ p) * (k * 2 ^ p) := by rw [this]; exact hm1
      have h2 : m ≤ k * 2 ^ p := by
        by_contra hc
        have : (k * 2 ^ p) * (k * 2 ^ p) < m * m := Nat.mul_lt_mul'' (by omega) (by omega)
        omega
      omega
    have hrem : n * 4 ^ p - m * m = 0 := by
      rw [hmeq, h4, ← hsq]
      have : k * k * (2 ^ p * 2 ^ p) = k * 2 ^ p * (k * 2 ^ p) := by ring
      omega
    rw [hrem, if_neg (by omega), hmeq]
    apply Nat.div_eq_of_lt_le
    · omega
    · have : (k + 1) * 2 ^ p = k * 2 ^ p + 2 ^ p := by ring
      omega
  · rw [if_neg hsq]
    have hlt : k * k < n := lt_of_le_of_ne hk1 hsq
    have hn52 : n < 2 ^ 52 := by
      rcases Nat.lt_or_ge n (2 ^ 52) with h' | h'
      · exact h'
      · exfalso
        have hn : n = 2 ^ 52 := by omega
        have h26 := isqrt_spec (2 ^ 52)
        rw [hn] at hk
        rw [hk] at h26
        have : k = 2 ^ 26 := by
          have a := h26.1
          have b := h26.2
          by_contra hne
          rcases Nat.lt_or_gt_of_ne hne with hlt' | hgt'
          · have : (k + 1) * (k + 1) ≤ 2 ^ 26 * 2 ^ 26 := Nat.mul_le_mul (by omega) (by omega)
            norm_num at this b; omega
          · have : (2 ^ 26 + 1) * (2 ^ 26 + 1) ≤ k * k := Nat.mul_le_mul (by omega) (by omega)
            norm_num at this a; omega
        apply hsq; rw [this, hn]; norm_num
    have hk26 : k < 2 ^ 26 := by
      by_contra hc
      have : 2 ^ 26 * 2 ^ 26 ≤ k * k := Nat.mul_le_mul (by omega) (by omega)
      norm_num at this hn52; omega
    have hp27 : 27 ≤ p := by
      have hb : bitPos n n < 52 := by
        rcases bitPos_lt n 52 hn52 with h' | h'
        · exact h'
        · omega
      omega
    have hPk : k < 2 ^ p := by
      have : 2 ^ 27 ≤ 2 ^ p := Nat.pow_le_pow_right (by norm_num) hp27
      norm_num at this hk26; omega
    -- the rounded significand is strictly above `k * 2 ^ p`
    have hM : k * 2 ^ p < (if m < n * 4 ^ p - m * m then m + 1 else m) := by
      split
      · omega
      · rename_i hnot
        rcases Nat.lt_or_ge (k * 2 ^ p) m with h' | h'
        · exact h'
        · exfalso
          have hmeq : m = k * 2 ^ p := by omega
          apply hnot
          have e1 : n * 4 ^ p = (k * k) * (2 ^ p * 2 ^ p) + (n - k * k) * (2 ^ p * 2 ^ p) := by
            rw [h4, ← Nat.add_mul]; congr 1; omega
          have e2 : m * m = (k * k) * (2 ^ p * 2 ^ p) := by rw [hmeq]; ring
          have e3 : 2 ^ p * 2 ^ p ≤ (n - k * k) * (2 ^ p * 2 ^ p) :=
            Nat.le_mul_of_pos_left _ (by omega)
          have e4 : k * 2 ^ p < 2 ^ p * 2 ^ p := Nat.mul_lt_mul_of_pos_right hPk hP
          omega
    have hM2 : (if m < n * 4 ^ p - m * m then m + 1 else m) ≤ (k + 1) * 2 ^ p := by
      split <;> omega
    generalize (if m < n * 4 ^ p - m * m then m + 1 else m) = M at hM hM2
    apply Nat.div_eq_of_lt_le
    · have : (k + 1) * 2 ^ p = k * 2 ^ p + 2 ^ p := by ring
      omega
    · have : (k + 1 + 1) * 2 ^ p = (k + 1) * 2 ^ p + 2 ^ p := by ring
      omega

/-! ## `BlobMinSquareSize` and `SubTreeWidth` -/

/-- Whatever `RoundUpPowerOfTwo` returns is a power of two of the type. -/
theorem RoundUpPowerOfTwo_ret_pow (t : IntType) (h : t.Proper) (input r : Int)
    (hr : RoundUpPowerOfTwo t input = .ret r) :
    ∃ k : Nat, k ≤ t.topExp ∧ r = 2 ^ k := by
  rcases le_or_lt input (2 ^ t.topExp) with hin | hin
  · obtain ⟨k, hk, hret, _, _⟩ := RoundUpPowerOfTwo_returns t h input hin
    rw [hret] at hr
    injection hr with hr
    exact ⟨k, hk, hr.symm⟩
  · rw [RoundUpPowerOfTwo_diverges t h input hin] at hr
    cases hr

/-- `BlobMinSquareSize` returns a power of two on every `int`. -/
theorem BlobMinSquareSize_returns (shareCount : Int) (h : goInt.InRange shareCount) :
    ∃ k : Nat, BlobMinSquareSize shareCount = .ret (2 ^ k) := by
  have hle : ceilSqrtFloat shareCount ≤ 2 ^ goInt.topExp :=
    le_trans (ceilSqrtFloat_le shareCount h) (by decide)
  obtain ⟨k, _, hret, _, _⟩ := RoundUpPowerOfTwo_returns goInt (by decide) _ hle
  exact ⟨k, hret⟩

/-- The rounded-up quotient computed at the start of `SubTreeWidth`. -/
theorem SubTreeWidth_quotient_le (shareCount threshold : Int) (h0 : 0 ≤ shareCount)
    (hmax : shareCount ≤ goInt.maxVal) (ht : 1 ≤ threshold)
    (hone : threshold = 1 → shareCount ≤ 2 ^ 62) :
    (if Int.tmod shareCount threshold ≠ 0
      then goInt.wrap (goInt.wrap (Int.tdiv shareCount threshold) + 1)
      else goInt.wrap (Int.tdiv shareCount threshold)) =
      (if shareCount % threshold ≠ 0 then shareCount / threshold + 1
        else shareCount / threshold) ∧
    (if shareCount % threshold ≠ 0 then shareCount / threshold + 1
        else shareCount / threshold) ≤ 2 ^ 62 ∧
    0 ≤ shareCount / threshold := by
  have hmaxv : goInt.maxVal = 2 ^ 63 - 1 := by decide
  have hdiv : Int.tdiv shareCount threshold = shareCount / threshold :=
    Int.tdiv_eq_ediv h0 (by omega)
  have hmod : Int.tmod shareCount threshold = shareCount % threshold :=
    Int.tmod_eq_emod h0 (by omega)
  have hq0 : 0 ≤ shareCount / threshold := Int.ediv_nonneg h0 (by omega)
  have hdm : threshold * (shareCount / threshold) + shareCount % threshold = shareCount :=
    Int.ediv_add_emod shareCount threshold
  have hr0 : 0 ≤ shareCount % threshold := Int.emod_nonneg _ (by omega)
  have hqle : shareCount / threshold ≤ shareCount := by
    have := Int.mul_le_mul_of_nonneg_right ht hq0
    omega
  have hbound : (if shareCount % threshold ≠ 0 then shareCount / threshold + 1
        else shareCount / threshold) ≤ 2 ^ 62 := by
    by_cases h1 : threshold = 1
    · have := hone h1
      subst h1
      simp
      omega
    · have h2 : 2 * (shareCount / threshold) ≤ threshold * (shareCount / threshold) :=
        Int.mul_le_mul_of_nonneg_right (by omega) hq0
      split <;> omega
  rw [hdiv, hmod, goInt_wrap_of_bounds _ hq0 (by omega)]
  refine ⟨?_, hbound, hq0⟩
  split
  · rename_i hne
    rw [if_pos hne] at hbound
    rw [goInt_wrap_of_bounds _ (by omega) (by omega)]
  · rfl

theorem getMin_cases (i j : Int) : (getMin i j = i ∧ i ≤ j) ∨ (getMin i j = j ∧ j ≤ i) := by
  unfold getMin
  split
  · left; exact ⟨rfl, by omega⟩
  · right; exact ⟨rfl, by omega⟩

/-- `SubTreeWidth` returns, with a power of two between 1 and the minimal
square size, unless the threshold is 1 and the share count exceeds `2 ^ 62`. -/
theorem SubTreeWidth_returns (shareCount threshold : Int) (h0 : 0 ≤ shareCount)
    (hmax : shareCount ≤ goInt.maxVal) (ht : 1 ≤ threshold)
    (hone : threshold = 1 → shareCount ≤ 2 ^ 62) :
    ∃ w m : Int, SubTreeWidth shareCount threshold = .ret w ∧
      BlobMinSquareSize shareCount = .ret m ∧ IsPowerOfTwo w ∧ w ≤ m ∧ 1 ≤ w ∧ w ≤ 2 ^ 62 := by
  obtain ⟨hs, hle, _⟩ := SubTreeWidth_quotient_le shareCount threshold h0 hmax ht hone
  have hmin : goInt.minVal ≤ 0 := by decide
  obtain ⟨km, hm⟩ := BlobMinSquareSize_returns shareCount ⟨by omega, hmax⟩
  obtain ⟨ks, hks, hsret, _, _⟩ := RoundUpPowerOfTwo_returns goInt (by decide) _
    (show (if shareCount % threshold ≠ 0 then shareCount / threshold + 1
        else shareCount / threshold) ≤ 2 ^ goInt.topExp from hle)
  have hks62 : (2 : Int) ^ ks ≤ 2 ^ 62 := pow_le_pow_right₀ (by norm_num) hks
  have h1s : (1 : Int) ≤ 2 ^ ks := one_le_pow₀ (by norm_num)
  have h1m : (1 : Int) ≤ 2 ^ km := one_le_pow₀ (by norm_num)
  refine ⟨getMin (2 ^ ks) (2 ^ km), 2 ^ km, ?_, hm, ?_⟩
  · unfold SubTreeWidth
    rw [if_neg (by omega)]
    simp only []
    rw [hs, hsret, hm]
    rfl
  · rcases getMin_cases (2 ^ ks) (2 ^ km) with ⟨e, hle'⟩ | ⟨e, hle'⟩
    · rw [e]; exact ⟨⟨ks, rfl⟩, hle', h1s, hks62⟩
    · rw [e]; exact ⟨⟨km, rfl⟩, le_refl _, h1m, by omega⟩

/-- Whenever `SubTreeWidth` returns, the width is a power of two, hence at least 1. -/
theorem SubTreeWidth_ret_pos (shareCount threshold w : Int)
    (hw : SubTreeWidth shareCount threshold = .ret w) : IsPowerOfTwo w ∧ 1 ≤ w := by
  unfold SubTreeWidth at hw
  split at hw
  · cases hw
  · simp only [] at hw
    generalize (if Int.tmod shareCount threshold ≠ 0
      then goInt.wrap (goInt.wrap (Int.tdiv shareCount threshold) + 1)
      else goInt.wrap (Int.tdiv shareCount threshold)) = s at hw
    cases hs : RoundUpPowerOfTwo goInt s with
    | ret a =>
      rw [hs] at hw
      simp only [Exec.bind] at hw
      cases hm : BlobMinSquareSize shareCount with
      | ret b =>
        rw [hm] at hw
        simp only [] at hw
        injection hw with hw
        obtain ⟨ka, _, rfl⟩ := RoundUpPowerOfTwo_ret_pow goInt (by decide) _ _ hs
        obtain ⟨kb, _, rfl⟩ := RoundUpPowerOfTwo_ret_pow goInt (by decide) _ _ hm
        have h1a : (1 : Int) ≤ 2 ^ ka := one_le_pow₀ (by norm_num)
        have h1b : (1 : Int) ≤ 2 ^ kb := one_le_pow₀ (by norm_num)
        rcases getMin_cases (2 ^ ka) (2 ^ kb) with ⟨e, _⟩ | ⟨e, _⟩
        · rw [← hw, e]; exact ⟨⟨ka, rfl⟩, h1a⟩
        · rw [← hw, e]; exact ⟨⟨kb, rfl⟩, h1b⟩
      | panicked => rw [hm] at hw; cases hw
      | diverges => rw [hm] at hw; cases hw
    | panicked => rw [hs] at hw; cases hw
    | diverges => rw [hs] at hw; cases hw

set_option maxRecDepth 100000 in
/-- C5, the code at the failing input: for `shareCount = 2 ^ 52 + 1` (exactly
representable as a `float64`) the correctly rounded square root is `2 ^ 26`, so
`BlobMinSquareSize` returns `2 ^ 26`, whose square `2 ^ 52` is below the share
count; the smallest power of two whose square holds the shares is `2 ^ 27`. -/
theorem BlobMinSquareSize_float_rounding :
    goInt.InRange (2 ^ 52 + 1) ∧ (0 : Int) ≤ 2 ^ 52 + 1 ∧
    mathSqrt (float64OfNat (2 ^ 52 + 1)) = (2 ^ 52, 26) ∧
    BlobMinSquareSize (2 ^ 52 + 1) = .ret (2 ^ 26) ∧
    ¬ ((2 : Int) ^ 52 + 1 ≤ 2 ^ 26 * 2 ^ 26) ∧ (2 : Int) ^ 52 + 1 ≤ 2 ^ 27 * 2 ^ 27 := by
  decide

set_option maxRecDepth 100000 in
/-- C6, the code at the failing input: with `shareCount = 2 ^ 62 + 1` and
`subtreeRootThreshold = 1` the quotient is `2 ^ 62 + 1`, the doubling loop of
`RoundUpPowerOfTwo` never exits on it (for any amount of fuel), and
`SubTreeWidth` never returns, while `BlobMinSquareSize` returns `2 ^ 31` there. -/
theorem SubTreeWidth_threshold_one_diverges :
    goInt.InRange (2 ^ 62 + 1) ∧ (0 : Int) ≤ 2 ^ 62 + 1 ∧ (1 : Int) ≤ 1 ∧
    (∀ fuel : Nat, RoundUpPowerOfTwo.loop goInt (2 ^ 62 + 1) fuel 1 = none) ∧
    SubTreeWidth (2 ^ 62 + 1) 1 = .diverges ∧
    BlobMinSquareSize (2 ^ 62 + 1) = .ret (2 ^ 31) :=
  ⟨by decide, by decide, by decide,
    RoundUpPowerOfTwo.loop_diverges goInt (by decide) _ (by decide), by decide, by decide⟩

/-! ## `NextShareIndex` -/

/-- `NextShareIndex` in terms of the width returned by `SubTreeWidth`. -/
theorem NextShareIndex_of_width (cursor blobShareLen threshold w : Int)
    (hw : SubTreeWidth blobShareLen threshold = .ret w) :
    NextShareIndex cursor blobShareLen threshold =
      .ret ((RoundUpByMultipleOf cursor w).1, none) := by
  have hpos := (SubTreeWidth_ret_pos _ _ _ hw).2
  unfold NextShareIndex
  rw [hw]
  simp only [Exec.bind]
  have hne : (RoundUpByMultipleOf cursor w).2 = none := by
    by_contra hc
    have := (RoundUpByMultipleOf_err_ne_none cursor w).mp hc
    omega
  rcases hr : RoundUpByMultipleOf cursor w with ⟨r, e⟩
  rw [hr] at hne
  simp only [] at hne
  subst hne
  rfl

/-- C7: for every blobShareLen ≥ 0, every subtreeRootThreshold ≥ 1 and every
cursor, `NextShareIndex` never returns an error: whenever `SubTreeWidth`
returns, the width is at least 1, so the zero-divisor branch of
`RoundUpByMultipleOf` is not taken.  (And unless the threshold is 1 and the
blob is longer than `2 ^ 62` shares, `NextShareIndex` does return, with a nil
error.) -/
theorem NextShareIndex_never_errors (cursor blobShareLen threshold : Int)
    (hlen : 0 ≤ blobShareLen) (hmax : blobShareLen ≤ goInt.maxVal) (ht : 1 ≤ threshold) :
    (∀ (r : Int) (e : GoError),
      NextShareIndex cursor blobShareLen threshold ≠ .ret (r, some e)) ∧
    (∀ w : Int, SubTreeWidth blobShareLen threshold = .ret w →
      1 ≤ w ∧ (RoundUpByMultipleOf cursor w).2 = none) ∧
    ((threshold = 1 → blobShareLen ≤ 2 ^ 62) →
      ∃ r : Int, NextShareIndex cursor blobShareLen threshold = .ret (r, none)) := by
  refine ⟨?_, ?_, ?_⟩
  · intro r e hret
    cases hw : SubTreeWidth blobShareLen threshold with
    | ret w =>
      rw [NextShareIndex_of_width _ _ _ _ hw] at hret
      injection hret with hret
      injection hret with _ h2
      cases h2
    | panicked => unfold NextShareIndex at hret; rw [hw] at hret; cases hret
    | diverges => unfold NextShareIndex at hret; rw [hw] at hret; cases hret
  · intro w hw
    have hpos := (SubTreeWidth_ret_pos _ _ _ hw).2
    refine ⟨hpos, ?_⟩
    by_contra hc
    have := (RoundUpByMultipleOf_err_ne_none cursor w).mp hc
    omega
  · intro hone
    obtain ⟨w, _, hw, _⟩ := SubTreeWidth_returns blobShareLen threshold hlen hmax ht hone
    exact ⟨_, NextShareIndex_of_width _ _ _ _ hw⟩

/-- C7, witness at cursor 1, a blob of 16256 shares and threshold 64. -/
theorem NextShareIndex_never_errors_witness :
    (0 : Int) ≤ 16256 ∧ (16256 : Int) ≤ goInt.maxVal ∧ (1 : Int) ≤ 64 ∧
    ((∀ (r : Int) (e : GoError), NextShareIndex 1 16256 64 ≠ .ret (r, some e)) ∧
    (∀ w : Int, SubTreeWidth 16256 64 = .ret w →
      1 ≤ w ∧ (RoundUpByMultipleOf 1 w).2 = none) ∧
    (((64 : Int) = 1 → (16256 : Int) ≤ 2 ^ 62) →
      ∃ r : Int, NextShareIndex 1 16256 64 = .ret (r, none))) :=
  ⟨by decide, by decide, by decide,
    NextShareIndex_never_errors 1 16256 64 (by decide) (by decide) (by decide)⟩

/-- C8 (amended): for every cursor ≥ 0, blobShareLen ≥ 0 and
subtreeRootThreshold ≥ 1 with subtreeRootThreshold ≥ 2 or blobShareLen ≤ 2^62,
`SubTreeWidth(blobShareLen, subtreeRootThreshold)` returns a width, and
whenever some multiple of that width at or above the cursor is representable in
`int`, `NextShareIndex` returns an index that is a multiple of the width and
lies in `[cursor, cursor + width)`. -/
theorem NextShareIndex_aligned (cursor blobShareLen threshold : Int)
    (hc : 0 ≤ cursor) (hlen : 0 ≤ blobShareLen) (hmax : blobShareLen ≤ goInt.maxVal)
    (ht : 1 ≤ threshold) (hone : threshold = 1 → blobShareLen ≤ 2 ^ 62) :
    ∃ width : Int, SubTreeWidth blobShareLen threshold = .ret width ∧
      ((∃ m : Int, cursor ≤ m * width ∧ m * width ≤ goInt.maxVal) →
        ∃ index : Int, NextShareIndex cursor blobShareLen threshold = .ret (index, none) ∧
          index % width = 0 ∧ cursor ≤ index ∧ index < cursor + width) := by
  obtain ⟨w, _, hw, _, _, _, hw1, _⟩ :=
    SubTreeWidth_returns blobShareLen threshold hlen hmax ht hone
  refine ⟨w, hw, fun hfit => ?_⟩
  obtain ⟨r, hr, _, hmod, hge, hlt, _⟩ :=
    RoundUpByMultipleOf_returns cursor w hc (by omega) hfit
  refine ⟨r, ?_, hmod, hge, hlt⟩
  rw [NextShareIndex_of_width _ _ _ _ hw, hr]

set_option maxRecDepth 100000 in
/-- C8, witness of the amended statement at cursor 1, a blob of 16256 shares
and threshold 64, where the width is 128 and the index is 128. -/
theorem NextShareIndex_aligned_witness :
    (0 : Int) ≤ 1 ∧ (0 : Int) ≤ 16256 ∧ (16256 : Int) ≤ goInt.maxVal ∧ (1 : Int) ≤ 64 ∧
    ((64 : Int) = 1 → (16256 : Int) ≤ 2 ^ 62) ∧
    (∃ width : Int, SubTreeWidth 16256 64 = .ret width ∧
      ((∃ m : Int, 1 ≤ m * width ∧ m * width ≤ goInt.maxVal) →
        ∃ index : Int, NextShareIndex 1 16256 64 = .ret (index, none) ∧
          index % width = 0 ∧ 1 ≤ index ∧ index < 1 + width)) ∧
    SubTreeWidth 16256 64 = .ret 128 ∧ NextShareIndex 1 16256 64 = .ret (128, none) :=
  ⟨by decide, by decide, by decide, by decide, by decide,
    NextShareIndex_aligned 1 16256 64 (by decide) (by decide) (by decide) (by decide)
      (by decide), by decide, by decide⟩

set_option maxRecDepth 100000 in
/-- C8, counterexample to the statement for every cursor ≥ 0: at the largest
`int` as cursor, a blob of 200 shares and threshold 64 the width is 4, the
aligned cursor wraps around to the smallest `int`, and the returned index is
below the cursor. -/
theorem NextShareIndex_wraps_counterexample :
    goInt.InRange (2 ^ 63 - 1) ∧ (0 : Int) ≤ 2 ^ 63 - 1 ∧ (0 : Int) ≤ 200 ∧ (1 : Int) ≤ 64 ∧
    SubTreeWidth 200 64 = .ret 4 ∧
    NextShareIndex (2 ^ 63 - 1) 200 64 = .ret (-(2 ^ 63), none) ∧
    ¬ ((2 : Int) ^ 63 - 1 ≤ -(2 ^ 63)) := by
  decide

/-! ## The reference definitions -/

theorem Spec.leastPowerOfTwoFrom_spec (n : Nat) (fuel : Nat) :
    ∀ j : Nat, n ≤ 2 ^ (j + fuel) → (j = 0 ∨ 2 ^ (j - 1) < n) →
      ∃ k : Nat, Spec.leastPowerOfTwoFrom n fuel (2 ^ j) = 2 ^ k ∧ n ≤ 2 ^ k ∧
        (k = 0 ∨ 2 ^ (k - 1) < n) := by
  induction fuel with
  | zero => intro j h1 h2; exact ⟨j, rfl, by simpa using h1, h2⟩
  | succ f ih =>
    intro j h1 h2
    unfold Spec.leastPowerOfTwoFrom
    by_cases hle : n ≤ 2 ^ j
    · rw [if_pos hle]; exact ⟨j, rfl, hle, h2⟩
    · rw [if_neg hle, show 2 * 2 ^ j = 2 ^ (j + 1) by rw [pow_succ]; ring]
      exact ih (j + 1) (by rw [show j + 1 + f = j + (f + 1) by omega]; exact h1)
        (Or.inr (by simpa using not_le.mp hle))

/-- The reference `roundUpPowerOfTwo n` is `2 ^ k` for the least `k` with `n ≤ 2 ^ k`. -/
theorem Spec.roundUpPowerOfTwo_spec (n : Nat) :
    ∃ k : Nat, Spec.roundUpPowerOfTwo n = 2 ^ k ∧ n ≤ 2 ^ k ∧ (k = 0 ∨ 2 ^ (k - 1) < n) := by
  have := Spec.leastPowerOfTwoFrom_spec n n 0 (by simpa using (Nat.lt_two_pow n).le) (Or.inl rfl)
  simpa [Spec.roundUpPowerOfTwo] using this

theorem Spec.roundUpPowerOfTwo_pos (n : Nat) : 1 ≤ Spec.roundUpPowerOfTwo n := by
  obtain ⟨k, hk, _⟩ := Spec.roundUpPowerOfTwo_spec n
  rw [hk]; exact Nat.one_le_two_pow

theorem least_exponent_unique (n k k' : Nat) (h1 : n ≤ 2 ^ k) (h2 : k = 0 ∨ 2 ^ (k - 1) < n)
    (h1' : n ≤ 2 ^ k') (h2' : k' = 0 ∨ 2 ^ (k' - 1) < n) : k = k' := by
  have key : ∀ a b : Nat, n ≤ 2 ^ a → (b = 0 ∨ 2 ^ (b - 1) < n) → b ≤ a := by
    intro a b ha hb
    rcases hb with rfl | hb
    · omega
    · have : 2 ^ (b - 1) < 2 ^ a := lt_of_lt_of_le hb ha
      have := (Nat.pow_lt_pow_iff_right (by norm_num)).mp this
      omega
  exact le_antisymm (key k' k h1' h2) (key k k' h1 h2')

/-- On naturals up to `2 ^ 62` the code's `RoundUpPowerOfTwo` at `int` is the reference. -/
theorem RoundUpPowerOfTwo_eq_spec (n : Nat) (h : n ≤ 2 ^ 62) :
    RoundUpPowerOfTwo goInt (n : Int) = .ret ((Spec.roundUpPowerOfTwo n : Nat) : Int) := by
  have hin : (n : Int) ≤ 2 ^ goInt.topExp := by
    have : goInt.topExp = 62 := by decide
    rw [this]; exact_mod_cast h
  obtain ⟨k, _, hret, hge, hmin⟩ := RoundUpPowerOfTwo_returns goInt (by decide) _ hin
  obtain ⟨k', hk', hge', hmin'⟩ := Spec.roundUpPowerOfTwo_spec n
  have e : k = k' := by
    apply least_exponent_unique n k k' (by exact_mod_cast hge) _ hge' hmin'
    rcases hmin with h0 | hlt
    · exact Or.inl h0
    · exact Or.inr (by exact_mod_cast hlt)
  rw [hret, hk', e]
  norm_cast

theorem ceilSqrtFloat_natCast (n : Nat) :
    ceilSqrtFloat (n : Int) = ((mathCeil (mathSqrt (float64OfNat n)) : Nat) : Int) := by
  unfold ceilSqrtFloat
  rw [if_neg (by omega)]
  simp

/-- Up to `2 ^ 52` shares the code's `BlobMinSquareSize` is the reference. -/
theorem BlobMinSquareSize_eq_spec (n : Nat) (h : n ≤ 2 ^ 52) :
    BlobMinSquareSize (n : Int) = .ret ((Spec.blobMinSquareSize n : Nat) : Int) := by
  unfold BlobMinSquareSize Spec.blobMinSquareSize
  have hle := mathCeil_mathSqrt_le _ (float64OfNat_le n (by omega))
  rw [ceilSqrtFloat_natCast, mathCeil_mathSqrt_exact n h] at *
  exact RoundUpPowerOfTwo_eq_spec _ (by omega)

/-- The reference `ceilSqrt n` is the least `c` with `n ≤ c * c`. -/
theorem Spec.ceilSqrt_spec (n : Nat) :
    n ≤ Spec.ceilSqrt n * Spec.ceilSqrt n ∧ ∀ c : Nat, n ≤ c * c → Spec.ceilSqrt n ≤ c := by
  obtain ⟨h1, h2⟩ := isqrt_spec n
  unfold Spec.ceilSqrt
  split
  · rename_i heq
    refine ⟨by omega, fun c hc => ?_⟩
    by_contra hlt
    have : c * c < isqrt n * isqrt n := Nat.mul_self_lt_mul_self (by omega)
    omega
  · rename_i hne
    refine ⟨h2.le, fun c hc => ?_⟩
    by_contra hlt
    have : c * c ≤ isqrt n * isqrt n := Nat.mul_self_le_mul_self (by omega)
    omega

/-- The reference `blobMinSquareSize n` is the least power of two whose square is at least `n`. -/
theorem Spec.blobMinSquareSize_spec (n : Nat) :
    ∃ k : Nat, Spec.blobMinSquareSize n = 2 ^ k ∧ n ≤ 2 ^ k * 2 ^ k ∧
      ∀ j : Nat, n ≤ 2 ^ j * 2 ^ j → 2 ^ k ≤ 2 ^ j := by
  obtain ⟨k, hk, hge, hmin⟩ := Spec.roundUpPowerOfTwo_spec (Spec.ceilSqrt n)
  obtain ⟨c1, c2⟩ := Spec.ceilSqrt_spec n
  refine ⟨k, hk, le_trans c1 (Nat.mul_le_mul hge hge), fun j hj => ?_⟩
  rcases hmin with rfl | hlt
  · simpa using Nat.one_le_two_pow
  · have : 2 ^ (k - 1) < 2 ^ j := lt_of_lt_of_le hlt (c2 _ hj)
    have := (Nat.pow_lt_pow_iff_right (by norm_num)).mp this
    exact Nat.pow_le_pow_right (by norm_num) (by omega)

/-- Up to `2 ^ 52` shares `BlobMinSquareSize` returns the smallest power of two
whose square holds the shares. -/
theorem BlobMinSquareSize_least (n : Nat) (h : n ≤ 2 ^ 52) :
    ∃ k : Nat, BlobMinSquareSize (n : Int) = .ret (2 ^ k) ∧ (n : Int) ≤ 2 ^ k * 2 ^ k ∧
      ∀ j : Nat, (n : Int) ≤ 2 ^ j * 2 ^ j → (2 : Int) ^ k ≤ 2 ^ j := by
  obtain ⟨k, hk, hge, hmin⟩ := Spec.blobMinSquareSize_spec n
  refine ⟨k, ?_, by exact_mod_cast hge, fun j hj => ?_⟩
  · rw [BlobMinSquareSize_eq_spec n h, hk]; norm_cast
  · exact_mod_cast hmin j (by exact_mod_cast hj)

theorem Spec.ceilDiv_eq (a b : Nat) (hb : 0 < b) :
    Spec.ceilDiv a b = if a % b = 0 then a / b else a / b + 1 := by
  unfold Spec.ceilDiv
  have hdm := Nat.div_add_mod a b
  have hr := Nat.mod_lt a hb
  have e1 : a / b * b = b * (a / b) := Nat.mul_comm _ _
  split
  · apply Nat.div_eq_of_lt_le
    · omega
    · rw [Nat.add_mul]; omega
  · apply Nat.div_eq_of_lt_le
    · rw [Nat.add_mul]; omega
    · rw [Nat.add_mul, Nat.add_mul]; omega

theorem Spec.roundUpByMultipleOf_spec (c w : Nat) (hw : 0 < w) :
    c ≤ Spec.roundUpByMultipleOf c w ∧ Spec.roundUpByMultipleOf c w < c + w ∧
      Spec.roundUpByMultipleOf c w % w = 0 := by
  unfold Spec.roundUpByMultipleOf
  refine ⟨?_, ?_, Nat.mul_mod_left _ _⟩
  all_goals
    rw [Spec.ceilDiv_eq c w hw]
    have hdm := Nat.div_add_mod c w
    have hr := Nat.mod_lt c hw
    have e1 : c / w * w = w * (c / w) := Nat.mul_comm _ _
    split
    · omega
    · rw [Nat.add_mul]; omega

theorem Spec.subTreeWidth_pos (n t : Nat) : 1 ≤ Spec.subTreeWidth n t := by
  unfold Spec.subTreeWidth Spec.blobMinSquareSize
  exact le_min (Spec.roundUpPowerOfTwo_pos _) (Spec.roundUpPowerOfTwo_pos _)

theorem getMin_natCast (a b : Nat) : getMin (a : Int) (b : Int) = ((min a b : Nat) : Int) := by
  unfold getMin
  split
  · rename_i h
    have : a < b := by exact_mod_cast h
    rw [min_eq_left this.le]
  · rename_i h
    have : ¬ a < b := by exact_mod_cast h
    rw [min_eq_right (by omega)]

/-- Up to `2 ^ 52` shares and for a threshold of at least 1 the code's
`SubTreeWidth` is the reference. -/
theorem SubTreeWidth_eq_spec (n t : Nat) (ht : 1 ≤ t) (h : n ≤ 2 ^ 52) :
    SubTreeWidth (n : Int) (t : Int) = .ret ((Spec.subTreeWidth n t : Nat) : Int) := by
  have hmaxv : goInt.maxVal = 2 ^ 63 - 1 := by decide
  have hn : (n : Int) ≤ 2 ^ 52 := by exact_mod_cast h
  obtain ⟨hs, hle, _⟩ := SubTreeWidth_quotient_le (n : Int) (t : Int) (by positivity)
    (by omega) (by exact_mod_cast ht) (fun _ => by omega)
  have hq : (if (n : Int) % (t : Int) ≠ 0 then (n : Int) / (t : Int) + 1
      else (n : Int) / (t : Int)) = ((Spec.ceilDiv n t : Nat) : Int) := by
    rw [Spec.ceilDiv_eq n t (by omega)]
    by_cases hz : n % t = 0
    · have : (n : Int) % (t : Int) = 0 := by exact_mod_cast hz
      rw [if_neg (by simpa using this), if_pos hz]
      norm_cast
    · have : (n : Int) % (t : Int) ≠ 0 := by exact_mod_cast hz
      rw [if_pos this, if_neg hz]
      norm_cast
  rw [hq] at hs hle
  unfold SubTreeWidth
  rw [if_neg (by exact_mod_cast (show t ≠ 0 by omega))]
  simp only []
  rw [hs, RoundUpPowerOfTwo_eq_spec _ (by exact_mod_cast hle), BlobMinSquareSize_eq_spec n h]
  simp only [Exec.bind, getMin_natCast]
  rfl

/-- When the aligned cursor fits in `int`, the code's `RoundUpByMultipleOf` is the reference. -/
theorem RoundUpByMultipleOf_eq_spec (c w : Nat) (hw : 1 ≤ w)
    (hfit : Spec.roundUpByMultipleOf c w ≤ 2 ^ 63 - 1) :
    RoundUpByMultipleOf (c : Int) (w : Int) =
      (((Spec.roundUpByMultipleOf c w : Nat) : Int), none) := by
  obtain ⟨s1, s2, s3⟩ := Spec.roundUpByMultipleOf_spec c w (by omega)
  have hmaxv : goInt.maxVal = 2 ^ 63 - 1 := by decide
  have hspec : ((Spec.roundUpByMultipleOf c w : Nat) : Int) = (Spec.ceilDiv c w : Int) * (w : Int) := by
    unfold Spec.roundUpByMultipleOf; push_cast; rfl
  have hfitz : ((Spec.roundUpByMultipleOf c w : Nat) : Int) ≤ 2 ^ 63 - 1 := by
    have : Spec.roundUpByMultipleOf c w < 2 ^ 63 := by omega
    have : ((Spec.roundUpByMultipleOf c w : Nat) : Int) < 2 ^ 63 := by exact_mod_cast this
    omega
  obtain ⟨r, hr, _, hmod, hge, hlt, hleast, _⟩ :=
    RoundUpByMultipleOf_returns (c : Int) (w : Int) (by positivity) (by exact_mod_cast hw)
      ⟨(Spec.ceilDiv c w : Int), by rw [← hspec]; exact_mod_cast s1, by rw [← hspec]; omega⟩
  rw [hr]
  congr 1
  have h1 : r ≤ ((Spec.roundUpByMultipleOf c w : Nat) : Int) := by
    rw [hspec]; apply hleast; rw [← hspec]; exact_mod_cast s1
  have h2 : ((Spec.roundUpByMultipleOf c w : Nat) : Int) < (c : Int) + (w : Int) := by
    exact_mod_cast s2
  have h3 : (((Spec.roundUpByMultipleOf c w : Nat) : Int) - r) % (w : Int) = 0 := by
    have : ((Spec.roundUpByMultipleOf c w : Nat) : Int) % (w : Int) = 0 := by exact_mod_cast s3
    rw [Int.sub_emod, this, hmod]; simp
  have h4 := Int.emod_eq_of_lt (show 0 ≤ ((Spec.roundUpByMultipleOf c w : Nat) : Int) - r by omega)
    (show ((Spec.roundUpByMultipleOf c w : Nat) : Int) - r < (w : Int) by omega)
  omega

/-- For a blob of at most `2 ^ 52` shares and an aligned cursor that fits in
`int`, the code's `NextShareIndex` is the reference. -/
theorem NextShareIndex_eq_spec (c l t : Nat) (ht : 1 ≤ t) (hl : l ≤ 2 ^ 52)
    (hfit : Spec.nextShareIndex c l t ≤ 2 ^ 63 - 1) :
    NextShareIndex (c : Int) (l : Int) (t : Int) =
      .ret (((Spec.nextShareIndex c l t : Nat) : Int), none) := by
  rw [NextShareIndex_of_width _ _ _ _ (SubTreeWidth_eq_spec l t ht hl),
    RoundUpByMultipleOf_eq_spec c _ (Spec.subTreeWidth_pos l t) hfit]
  rfl

/-! ## `BlobSharesUsedNonInteractiveDefaults` -/

theorem Spec.le_nextShareIndex (c l t : Nat) : c ≤ Spec.nextShareIndex c l t :=
  (Spec.roundUpByMultipleOf_spec c _ (Spec.subTreeWidth_pos l t)).1

theorem Spec.le_placementEnd (t : Nat) : ∀ (lens : List Nat) (c : Nat),
    c ≤ Spec.placementEnd t c lens := by
  intro lens
  induction lens with
  | nil => intro c; exact le_refl _
  | cons l ls ih =>
    intro c
    have h1 := Spec.le_nextShareIndex c l t
    have h2 := ih (Spec.nextShareIndex c l t + l)
    simp only [Spec.placementEnd]
    omega

theorem Spec.placementIndexes_length (t : Nat) : ∀ (lens : List Nat) (c : Nat),
    (Spec.placementIndexes t c lens).length = lens.length := by
  intro lens
  induction lens with
  | nil => intro c; rfl
  | cons l ls ih => intro c; simp [Spec.placementIndexes, ih]

/-- In the reference placement each blob starts at or after the end of the blob before it. -/
theorem Spec.placementIndexes_apart (t : Nat) : ∀ (lens : List Nat) (c : Nat) (i a b l : Nat),
    (Spec.placementIndexes t c lens)[i]? = some a →
    (Spec.placementIndexes t c lens)[i + 1]? = some b → lens[i]? = some l → a + l ≤ b := by
  intro lens
  induction lens with
  | nil => intro c i a b l h; simp [Spec.placementIndexes] at h
  | cons l0 ls ih =>
    intro c i a b l ha hb hl
    cases i with
    | zero =>
      simp only [Spec.placementIndexes, List.getElem?_cons_zero, List.getElem?_cons_succ,
        Option.some.injEq] at ha hb hl
      subst ha hl
      cases ls with
      | nil => simp [Spec.placementIndexes] at hb
      | cons l1 ls' =>
        simp only [Spec.placementIndexes, List.getElem?_cons_zero, Option.some.injEq] at hb
        rw [← hb]
        exact Spec.le_nextShareIndex _ _ _
    | succ j =>
      simp only [Spec.placementIndexes, List.getElem?_cons_succ] at ha hb hl
      exact ih _ j a b l ha hb hl

theorem goUint32_wrap_of_lt (x : Nat) (h : x < 2 ^ 32) : goUint32.wrap (x : Int) = (x : Int) := by
  apply goUint32.wrap_of_inRange (by decide)
  have hmax : goUint32.maxVal = 2 ^ 32 - 1 := by decide
  have hmin : goUint32.minVal = 0 := by decide
  have : (x : Int) < 2 ^ 32 := by exact_mod_cast h
  constructor <;> omega

/-- When the reference placement ends below `2 ^ 32`, the loop of
`BlobSharesUsedNonInteractiveDefaults` runs to its end, leaves the reference
final cursor and appends the reference indexes. -/
theorem BlobSharesUsedNonInteractiveDefaults.loop_eq_spec (t : Nat) (ht : 1 ≤ t) :
    ∀ (lens : List Nat) (c : Nat) (acc : List Int), Spec.placementEnd t c lens < 2 ^ 32 →
      BlobSharesUsedNonInteractiveDefaults.loop (t : Int) (c : Int) acc
          (lens.map fun (l : Nat) => (l : Int)) =
        .ret (.ok (((Spec.placementEnd t c lens : Nat) : Int),
          acc ++ (Spec.placementIndexes t c lens).map fun (i : Nat) => (i : Int))) := by
  intro lens
  induction lens with
  | nil => intro c acc _; simp [BlobSharesUsedNonInteractiveDefaults.loop, Spec.placementEnd,
      Spec.placementIndexes]
  | cons l ls ih =>
    intro c acc hend
    simp only [Spec.placementEnd] at hend
    have h1 := Spec.le_placementEnd t ls (Spec.nextShareIndex c l t + l)
    have hmaxv : goInt.maxVal = 2 ^ 63 - 1 := by decide
    have hnext := NextShareIndex_eq_spec c l t ht (by omega) (by omega)
    have hw : goInt.wrap (((Spec.nextShareIndex c l t : Nat) : Int) + (l : Int)) =
        ((Spec.nextShareIndex c l t + l : Nat) : Int) := by
      have : ((Spec.nextShareIndex c l t + l : Nat) : Int) < 2 ^ 32 := by
        exact_mod_cast (show Spec.nextShareIndex c l t + l < 2 ^ 32 by omega)
      push_cast at this ⊢
      exact goInt_wrap_of_bounds _ (by positivity) (by omega)
    simp only [List.map_cons, BlobSharesUsedNonInteractiveDefaults.loop, hnext, hw,
      goUint32_wrap_of_lt _ (show Spec.nextShareIndex c l t < 2 ^ 32 by omega)]
    rw [ih _ _ hend]
    simp [Spec.placementEnd, Spec.placementIndexes]

/-- The reference placement, read in `int`, is a placement by the code's `NextShareIndex`. -/
theorem isPlacement_spec (t : Nat) (ht : 1 ≤ t) :
    ∀ (lens : List Nat) (c : Nat), Spec.placementEnd t c lens < 2 ^ 32 →
      IsPlacement (t : Int) (c : Int) (lens.map fun (l : Nat) => (l : Int))
        ((Spec.placementIndexes t c lens).map fun (i : Nat) => (i : Int))
        ((Spec.placementEnd t c lens : Nat) : Int) := by
  intro lens
  induction lens with
  | nil => intro c _; simp [IsPlacement, Spec.placementEnd, Spec.placementIndexes]
  | cons l ls ih =>
    intro c hend
    simp only [Spec.placementEnd] at hend
    have h1 := Spec.le_placementEnd t ls (Spec.nextShareIndex c l t + l)
    have hnext := NextShareIndex_eq_spec c l t ht (by omega) (by omega)
    simp only [List.map_cons, Spec.placementIndexes, Spec.placementEnd, IsPlacement]
    refine ⟨hnext, ?_⟩
    have := ih _ hend
    push_cast at this
    exact this

/-- What a placement says index by index. -/
theorem IsPlacement.indexed (t : Int) : ∀ (lens indexes : List Int) (c final : Int),
    IsPlacement t c lens indexes final →
      indexes.length = lens.length ∧
      (∀ l : Int, lens[0]? = some l →
        ∃ i0 : Int, indexes[0]? = some i0 ∧ NextShareIndex c l t = .ret (i0, none)) ∧
      (∀ (i : Nat) (a l l' : Int), indexes[i]? = some a → lens[i]? = some l →
        lens[i + 1]? = some l' →
        ∃ b : Int, indexes[i + 1]? = some b ∧ NextShareIndex (a + l) l' t = .ret (b, none)) ∧
      (lens = [] → final = c ∧ indexes = []) ∧
      (∀ a l : Int, indexes.getLast? = some a → lens.getLast? = some l → final = a + l) := by
  intro lens
  induction lens with
  | nil =>
    intro indexes c final h
    cases indexes with
    | nil =>
      simp only [IsPlacement] at h
      simp [h]
    | cons i0 is => simp [IsPlacement] at h
  | cons l0 ls ih =>
    intro indexes c final h
    cases indexes with
    | nil => simp [IsPlacement] at h
    | cons i0 is =>
      simp only [IsPlacement] at h
      obtain ⟨hnext, hrest⟩ := h
      obtain ⟨hlen, hfirst, hrec, hnil, hlast⟩ := ih is (i0 + l0) final hrest
      refine ⟨by simp [hlen], ?_, ?_, by simp, ?_⟩
      · intro l hl
        simp only [List.getElem?_cons_zero, Option.some.injEq] at hl
        subst hl
        exact ⟨i0, by simp, hnext⟩
      · intro i a l l' ha hl hl'
        cases i with
        | zero =>
          simp only [List.getElem?_cons_zero, List.getElem?_cons_succ, Option.some.injEq]
            at ha hl hl'
          subst ha hl
          simpa using hfirst l' hl'
        | succ j =>
          simp only [List.getElem?_cons_succ] at ha hl hl' ⊢
          exact hrec j a l l' ha hl hl'
      · intro a l ha hl
        cases ls with
        | nil =>
          obtain ⟨hf, his⟩ := hnil rfl
          subst his
          simp only [List.getLast?_singleton, Option.some.injEq] at ha hl
          subst ha hl
          exact hf
        | cons l1 ls' =>
          cases is with
          | nil => simp at hlen
          | cons i1 is' =>
            rw [List.getLast?_cons_cons] at ha hl
            exact hlast a l ha hl

/-- When the reference placement ends below `2 ^ 32`, the code returns the
reference result: the shares spanned, the reference indexes and a nil error. -/
theorem BlobSharesUsedNonInteractiveDefaults_eq_spec (cursor threshold : Nat)
    (blobLens : List Nat) (ht : 1 ≤ threshold)
    (hend : Spec.placementEnd threshold cursor blobLens < 2 ^ 32) :
    BlobSharesUsedNonInteractiveDefaults (cursor : Int) (threshold : Int)
        (blobLens.map fun (l : Nat) => (l : Int)) =
      .ret (((Spec.placementEnd threshold cursor blobLens : Nat) : Int) - (cursor : Int),
        (Spec.placementIndexes threshold cursor blobLens).map (fun (i : Nat) => (i : Int)),
        none) := by
  have hle := Spec.le_placementEnd threshold blobLens cursor
  have hmaxv : goInt.maxVal = 2 ^ 63 - 1 := by decide
  have hz : ((Spec.placementEnd threshold cursor blobLens : Nat) : Int) < 2 ^ 32 := by
    exact_mod_cast hend
  have hz2 : (cursor : Int) ≤ ((Spec.placementEnd threshold cursor blobLens : Nat) : Int) := by
    exact_mod_cast hle
  unfold BlobSharesUsedNonInteractiveDefaults
  simp only []
  rw [BlobSharesUsedNonInteractiveDefaults.loop_eq_spec threshold ht blobLens cursor [] hend]
  simp only [List.nil_append]
  rw [goInt_wrap_of_bounds _ (by omega) (by omega)]

/-- C9: for every cursor ≥ 0, subtreeRootThreshold ≥ 1 and every sequence of
non-negative blob lengths whose placement ends below `2 ^ 32`,
`BlobSharesUsedNonInteractiveDefaults` succeeds and returns exactly one index
per blob in input order, where `indexes[0] = NextShareIndex(cursor, blobLens[0],
threshold)`, `indexes[i+1] = NextShareIndex(indexes[i] + blobLens[i],
blobLens[i+1], threshold)` and
`sharesUsed = indexes[last] + blobLens[last] - cursor` (`sharesUsed = 0` and no
indexes for the empty sequence). -/
theorem BlobSharesUsedNonInteractiveDefaults_placement (cursor threshold : Nat)
    (blobLens : List Nat) (ht : 1 ≤ threshold)
    (hend : Spec.placementEnd threshold cursor blobLens < 2 ^ 32) :
    ∃ (sharesUsed : Int) (indexes : List Int),
      BlobSharesUsedNonInteractiveDefaults (cursor : Int) (threshold : Int)
          (blobLens.map fun (l : Nat) => (l : Int)) = .ret (sharesUsed, indexes, none) ∧
      indexes.length = blobLens.length ∧
      (∀ l : Nat, blobLens[0]? = some l →
        ∃ i0 : Int, indexes[0]? = some i0 ∧
          NextShareIndex (cursor : Int) (l : Int) (threshold : Int) = .ret (i0, none)) ∧
      (∀ (i : Nat) (a : Int) (l l' : Nat), indexes[i]? = some a → blobLens[i]? = some l →
        blobLens[i + 1]? = some l' →
        ∃ b : Int, indexes[i + 1]? = some b ∧
          NextShareIndex (a + (l : Int)) (l' : Int) (threshold : Int) = .ret (b, none)) ∧
      (blobLens = [] → sharesUsed = 0 ∧ indexes = []) ∧
      (∀ (a : Int) (l : Nat), indexes.getLast? = some a → blobLens.getLast? = some l →
        sharesUsed = a + (l : Int) - (cursor : Int)) := by
  obtain ⟨hlen, hfirst, hrec, hnil, hlast⟩ := IsPlacement.indexed _ _ _ _ _
    (isPlacement_spec threshold ht blobLens cursor hend)
  refine ⟨_, _, BlobSharesUsedNonInteractiveDefaults_eq_spec cursor threshold blobLens ht hend,
    by simpa using hlen, ?_, ?_, ?_, ?_⟩
  · intro l hl
    exact hfirst l (by simp [hl])
  · intro i a l l' ha hl hl'
    exact hrec i a l l' ha (by simp [hl]) (by simp [hl'])
  · intro he
    obtain ⟨h1, h2⟩ := hnil (by simp [he])
    exact ⟨by omega, h2⟩
  · intro a l ha hl
    have := hlast a l ha (by simp [List.getLast?_map, hl])
    omega

/-- C9, witness at cursor 1, threshold 64 and blobs of 128, 128 and 128 shares. -/
theorem BlobSharesUsedNonInteractiveDefaults_placement_witness :
    1 ≤ 64 ∧ Spec.placementEnd 64 1 [128, 128, 128] < 2 ^ 32 ∧
    ∃ (sharesUsed : Int) (indexes : List Int),
      BlobSharesUsedNonInteractiveDefaults ((1 : Nat) : Int) ((64 : Nat) : Int)
          ([128, 128, 128].map fun (l : Nat) => (l : Int)) = .ret (sharesUsed, indexes, none) ∧
      indexes.length = [128, 128, 128].length ∧
      (∀ l : Nat, [128, 128, 128][0]? = some l →
        ∃ i0 : Int, indexes[0]? = some i0 ∧
          NextShareIndex ((1 : Nat) : Int) (l : Int) ((64 : Nat) : Int) = .ret (i0, none)) ∧
      (∀ (i : Nat) (a : Int) (l l' : Nat), indexes[i]? = some a →
        [128, 128, 128][i]? = some l → [128, 128, 128][i + 1]? = some l' →
        ∃ b : Int, indexes[i + 1]? = some b ∧
          NextShareIndex (a + (l : Int)) (l' : Int) ((64 : Nat) : Int) = .ret (b, none)) ∧
      (([128, 128, 128] : List Nat) = [] → sharesUsed = 0 ∧ indexes = []) ∧
      (∀ (a : Int) (l : Nat), indexes.getLast? = some a →
        [128, 128, 128].getLast? = some l →
        sharesUsed = a + (l : Int) - ((1 : Nat) : Int)) :=
  ⟨by decide, by decide,
    BlobSharesUsedNonInteractiveDefaults_placement 1 64 [128, 128, 128] (by decide) (by decide)⟩

/-- C10 (amended): for every cursor ≥ 0, subtreeRootThreshold ≥ 1 and every
sequence of non-negative blob lengths whose placement ends below `2 ^ 32`, the
indexes returned by `BlobSharesUsedNonInteractiveDefaults` are non-decreasing
and non-overlapping: `indexes[i+1] ≥ indexes[i] + blobLens[i]` for every `i`
with `i + 1` in range. -/
theorem BlobSharesUsedNonInteractiveDefaults_non_overlapping (cursor threshold : Nat)
    (blobLens : List Nat) (ht : 1 ≤ threshold)
    (hend : Spec.placementEnd threshold cursor blobLens < 2 ^ 32) :
    ∃ (sharesUsed : Int) (indexes : List Int),
      BlobSharesUsedNonInteractiveDefaults (cursor : Int) (threshold : Int)
          (blobLens.map fun (l : Nat) => (l : Int)) = .ret (sharesUsed, indexes, none) ∧
      indexes.length = blobLens.length ∧
      ∀ (i : Nat) (a b : Int) (l : Nat), indexes[i]? = some a → indexes[i + 1]? = some b →
        blobLens[i]? = some l → a + (l : Int) ≤ b := by
  refine ⟨_, _, BlobSharesUsedNonInteractiveDefaults_eq_spec cursor threshold blobLens ht hend,
    by simp [Spec.placementIndexes_length], ?_⟩
  intro i a b l ha hb hl
  rw [List.getElem?_map] at ha hb
  cases ha' : (Spec.placementIndexes threshold cursor blobLens)[i]? with
  | none => rw [ha'] at ha; cases ha
  | some a0 =>
    cases hb' : (Spec.placementIndexes threshold cursor blobLens)[i + 1]? with
    | none => rw [hb'] at hb; cases hb
    | some b0 =>
      rw [ha'] at ha; rw [hb'] at hb
      simp only [Option.map_some', Option.some.injEq] at ha hb
      have := Spec.placementIndexes_apart threshold blobLens cursor i a0 b0 l ha' hb' hl
      rw [← ha, ← hb]
      exact_mod_cast this

/-- C10, witness of the amended statement at cursor 1, threshold 64 and blobs
of 128, 128 and 128 shares. -/
theorem BlobSharesUsedNonInteractiveDefaults_non_overlapping_witness :
    1 ≤ 64 ∧ Spec.placementEnd 64 1 [128, 128, 128] < 2 ^ 32 ∧
    ∃ (sharesUsed : Int) (indexes : List Int),
      BlobSharesUsedNonInteractiveDefaults ((1 : Nat) : Int) ((64 : Nat) : Int)
          ([128, 128, 128].map fun (l : Nat) => (l : Int)) = .ret (sharesUsed, indexes, none) ∧
      indexes.length = [128, 128, 128].length ∧
      ∀ (i : Nat) (a b : Int) (l : Nat), indexes[i]? = some a → indexes[i + 1]? = some b →
        [128, 128, 128][i]? = some l → a + (l : Int) ≤ b :=
  ⟨by decide, by decide,
    BlobSharesUsedNonInteractiveDefaults_non_overlapping 1 64 [128, 128, 128] (by decide)
      (by decide)⟩

set_option maxRecDepth 100000 in
/-- C10, counterexample to the statement for every cursor ≥ 0: from cursor
`2 ^ 32 - 1` with threshold 64 and two blobs of one share, the second index
`2 ^ 32` is stored as the `uint32` 0, so the returned indexes are
`[4294967295, 0]` and the second is below the first plus its blob length. -/
theorem BlobSharesUsedNonInteractiveDefaults_uint32_counterexample :
    goInt.InRange (2 ^ 32 - 1) ∧ (0 : Int) ≤ 2 ^ 32 - 1 ∧ (1 : Int) ≤ 64 ∧
    BlobSharesUsedNonInteractiveDefaults (2 ^ 32 - 1) 64 [1, 1] =
      .ret (2, [4294967295, 0], none) ∧
    ¬ ((4294967295 : Int) + 1 ≤ 0) := by
  decide

/-! ## Concrete scenarios, error handling, totality and monotonicity -/

set_option maxRecDepth 100000 in
/-- C12 (amended): with subtreeRootThreshold = 64,
`BlobSharesUsedNonInteractiveDefaults(cursor = 3, blobLens = [5, 7])` returns
sharesUsed = 12 and indexes = [3, 8], and with cursor = 1 it returns
sharesUsed = 12 and indexes = [1, 6]: both blobs have subtree width 1, so
`NextShareIndex` leaves the cursor where it is. -/
theorem BlobSharesUsedNonInteractiveDefaults_scenario_5_7 :
    BlobSharesUsedNonInteractiveDefaults 3 64 [5, 7] = .ret (12, [3, 8], none) ∧
    BlobSharesUsedNonInteractiveDefaults 1 64 [5, 7] = .ret (12, [1, 6], none) ∧
    SubTreeWidth 5 64 = .ret 1 ∧ SubTreeWidth 7 64 = .ret 1 ∧
    NextShareIndex 1 5 64 = .ret (1, none) ∧ NextShareIndex 6 7 64 = .ret (6, none) := by
  decide

set_option maxRecDepth 100000 in
/-- C12, counterexample: from cursor 1 the code does not return the indexes
`[3, 8]`; the first index is the cursor 1 itself. -/
theorem BlobSharesUsedNonInteractiveDefaults_scenario_counterexample :
    BlobSharesUsedNonInteractiveDefaults 1 64 [5, 7] ≠ .ret (12, [3, 8], none) ∧
    NextShareIndex 1 5 64 ≠ .ret (3, none) := by
  decide

theorem BlobSharesUsedNonInteractiveDefaults.loop_eq_loopWith (threshold : Int) :
    ∀ (lens : List Int) (cursor : Int) (acc : List Int),
      BlobSharesUsedNonInteractiveDefaults.loop threshold cursor acc lens =
        BlobSharesUsedNonInteractiveDefaults.loopWith
          (fun c l => NextShareIndex c l threshold) cursor acc lens := by
  intro lens
  induction lens with
  | nil => intro cursor acc; rfl
  | cons l ls ih =>
    intro cursor acc
    simp only [BlobSharesUsedNonInteractiveDefaults.loop,
      BlobSharesUsedNonInteractiveDefaults.loopWith]
    cases h : NextShareIndex cursor l threshold with
    | ret r =>
      obtain ⟨c, e⟩ := r
      cases e with
      | none => simp only []; exact ih _ _
      | some err => rfl
    | panicked => rfl
    | diverges => rfl

/-- The function is its body around `NextShareIndex`. -/
theorem BlobSharesUsedNonInteractiveDefaults_eq_with (cursor threshold : Int)
    (lens : List Int) :
    BlobSharesUsedNonInteractiveDefaults cursor threshold lens =
      BlobSharesUsedNonInteractiveDefaultsWith (fun c l => NextShareIndex c l threshold)
        cursor lens := by
  unfold BlobSharesUsedNonInteractiveDefaults BlobSharesUsedNonInteractiveDefaultsWith
  rw [BlobSharesUsedNonInteractiveDefaults.loop_eq_loopWith]

/-- C13: `BlobSharesUsedNonInteractiveDefaults` is all-or-nothing.  Whatever
the index planner called in the loop does (the function is the instance at
`NextShareIndex`), on every input on which an error is returned the returned
sharesUsed is 0 and the returned indexes are nil, so no prefix of the indexes
computed before the error is exposed. -/
theorem BlobSharesUsedNonInteractiveDefaults_all_or_nothing
    (next : Int → Int → Exec (Int × Option GoError)) (cursor : Int) (lens : List Int)
    (sharesUsed : Int) (indexes : List Int) (err : GoError)
    (h : BlobSharesUsedNonInteractiveDefaultsWith next cursor lens =
      .ret (sharesUsed, indexes, some err)) :
    sharesUsed = 0 ∧ indexes = [] ∧
    ∀ threshold : Int, BlobSharesUsedNonInteractiveDefaults cursor threshold lens =
      BlobSharesUsedNonInteractiveDefaultsWith (fun c l => NextShareIndex c l threshold)
        cursor lens := by
  refine ⟨?_, ?_, fun threshold => BlobSharesUsedNonInteractiveDefaults_eq_with _ _ _⟩
  all_goals
    unfold BlobSharesUsedNonInteractiveDefaultsWith at h
    simp only [] at h
    cases hl : BlobSharesUsedNonInteractiveDefaults.loopWith next cursor [] lens with
    | ret r =>
      rw [hl] at h
      cases r with
      | ok p =>
        obtain ⟨c, idxs⟩ := p
        simp only [] at h
        injection h with h
        injection h with _ h
        injection h with _ h
        cases h
      | error e =>
        simp only [] at h
        injection h with h
        injection h with h1 h2
        injection h2 with h2 _
        first
          | exact h1.symm
          | exact h2.symm
    | panicked => rw [hl] at h; cases h
    | diverges => rw [hl] at h; cases h

/-- C13, witness: with a planner that fails on the second blob, after the index
of the first blob has been computed, the error return carries sharesUsed 0 and
no indexes. -/
theorem BlobSharesUsedNonInteractiveDefaults_all_or_nothing_witness :
    BlobSharesUsedNonInteractiveDefaultsWith failingPlanner 1 [5, 7] =
      .ret (0, [], some (.failedToCalculateNextShareIndex .vCannotBeZero)) ∧
    BlobSharesUsedNonInteractiveDefaultsWith failingPlanner 1 [5] = .ret (5, [1], none) ∧
    ((0 : Int) = 0 ∧ ([] : List Int) = [] ∧
    ∀ threshold : Int, BlobSharesUsedNonInteractiveDefaults 1 threshold [5, 7] =
      BlobSharesUsedNonInteractiveDefaultsWith (fun c l => NextShareIndex c l threshold)
        1 [5, 7]) :=
  ⟨by decide, by decide,
    BlobSharesUsedNonInteractiveDefaults_all_or_nothing failingPlanner 1 [5, 7] 0 []
      (.failedToCalculateNextShareIndex .vCannotBeZero) (by decide)⟩

/-- In the code itself the error return is never taken: `NextShareIndex` has no
error return, so `BlobSharesUsedNonInteractiveDefaults` has none either. -/
theorem BlobSharesUsedNonInteractiveDefaults.loop_no_error (threshold : Int) :
    ∀ (lens : List Int) (cursor : Int) (acc : List Int) (err : GoError),
      BlobSharesUsedNonInteractiveDefaults.loop threshold cursor acc lens ≠
        .ret (.error err) := by
  intro lens
  induction lens with
  | nil => intro cursor acc err h; simp [BlobSharesUsedNonInteractiveDefaults.loop] at h
  | cons l ls ih =>
    intro cursor acc err h
    simp only [BlobSharesUsedNonInteractiveDefaults.loop] at h
    cases hw : SubTreeWidth l threshold with
    | ret w =>
      rw [NextShareIndex_of_width _ _ _ _ hw] at h
      simp only [] at h
      exact ih _ _ _ h
    | panicked =>
      have : NextShareIndex cursor l threshold = .panicked := by
        unfold NextShareIndex; rw [hw]; rfl
      rw [this] at h; cases h
    | diverges =>
      have : NextShareIndex cursor l threshold = .diverges := by
        unfold NextShareIndex; rw [hw]; rfl
      rw [this] at h; cases h

set_option maxRecDepth 100000 in
/-- C14, the code at failing inputs: at `int32`, `int`, `uint32` and `uint64`,
for the input one above the largest power of two of the type, the doubling loop
of `RoundUpPowerOfTwo` never exits, whatever the fuel, and no result is
returned. -/
theorem RoundUpPowerOfTwo_not_total :
    (goInt32.InRange (2 ^ 30 + 1) ∧
      (∀ fuel : Nat, RoundUpPowerOfTwo.loop goInt32 (2 ^ 30 + 1) fuel 1 = none) ∧
      RoundUpPowerOfTwo goInt32 (2 ^ 30 + 1) = .diverges) ∧
    (goInt.InRange (2 ^ 62 + 1) ∧
      (∀ fuel : Nat, RoundUpPowerOfTwo.loop goInt (2 ^ 62 + 1) fuel 1 = none) ∧
      RoundUpPowerOfTwo goInt (2 ^ 62 + 1) = .diverges) ∧
    (goUint32.InRange (2 ^ 31 + 1) ∧
      (∀ fuel : Nat, RoundUpPowerOfTwo.loop goUint32 (2 ^ 31 + 1) fuel 1 = none) ∧
      RoundUpPowerOfTwo goUint32 (2 ^ 31 + 1) = .diverges) ∧
    (goUint64.InRange (2 ^ 63 + 1) ∧
      (∀ fuel : Nat, RoundUpPowerOfTwo.loop goUint64 (2 ^ 63 + 1) fuel 1 = none) ∧
      RoundUpPowerOfTwo goUint64 (2 ^ 63 + 1) = .diverges) :=
  ⟨⟨by decide, RoundUpPowerOfTwo.loop_diverges goInt32 (by decide) _ (by decide),
      RoundUpPowerOfTwo_diverges goInt32 (by decide) _ (by decide)⟩,
    ⟨by decide, RoundUpPowerOfTwo.loop_diverges goInt (by decide) _ (by decide),
      RoundUpPowerOfTwo_diverges goInt (by decide) _ (by decide)⟩,
    ⟨by decide, RoundUpPowerOfTwo.loop_diverges goUint32 (by decide) _ (by decide),
      RoundUpPowerOfTwo_diverges goUint32 (by decide) _ (by decide)⟩,
    ⟨by decide, RoundUpPowerOfTwo.loop_diverges goUint64 (by decide) _ (by decide),
      RoundUpPowerOfTwo_diverges goUint64 (by decide) _ (by decide)⟩⟩

/-- C15 (amended): at every integer type `RoundUpPowerOfTwo` is monotonic on
the inputs up to the largest power of two of the type: for `x ≤ y` in that
range both calls return and `RoundUpPowerOfTwo(x) ≤ RoundUpPowerOfTwo(y)`. -/
theorem RoundUpPowerOfTwo_monotonic (t : IntType) (ht : t.Proper) (x y : Int) (hxy : x ≤ y)
    (hy : y ≤ 2 ^ t.topExp) :
    ∃ rx ry : Int, RoundUpPowerOfTwo t x = .ret rx ∧ RoundUpPowerOfTwo t y = .ret ry ∧
      rx ≤ ry := by
  obtain ⟨kx, _, hx, _, hminx⟩ := RoundUpPowerOfTwo_returns t ht x (le_trans hxy hy)
  obtain ⟨ky, _, hy', hgey, _⟩ := RoundUpPowerOfTwo_returns t ht y hy
  refine ⟨_, _, hx, hy', ?_⟩
  rcases hminx with rfl | hlt
  · simpa using (one_le_pow₀ (by norm_num) : (1 : Int) ≤ 2 ^ ky)
  · have h1 : (2 : Int) ^ (kx - 1) < 2 ^ ky := by omega
    have h2 : kx - 1 < ky := (pow_lt_pow_iff_right₀ (by norm_num)).mp h1
    exact pow_le_pow_right₀ (by norm_num) (by omega)

/-- C15, witness of the amended statement at `int`, x = 5 and y = 100. -/
theorem RoundUpPowerOfTwo_monotonic_witness :
    (5 : Int) ≤ 100 ∧ (100 : Int) ≤ 2 ^ goInt.topExp ∧
    ∃ rx ry : Int, RoundUpPowerOfTwo goInt 5 = .ret rx ∧
      RoundUpPowerOfTwo goInt 100 = .ret ry ∧ rx ≤ ry :=
  ⟨by decide, by decide,
    RoundUpPowerOfTwo_monotonic goInt (by decide) 5 100 (by decide) (by decide)⟩

/-- C15, counterexample to the statement for all integers: for the `int`
values x = 1 ≤ y = 2 ^ 62 + 1 the call at x returns 1 and the call at y returns
nothing, so there is no result to compare with. -/
theorem RoundUpPowerOfTwo_monotonic_counterexample :
    goInt.InRange 1 ∧ goInt.InRange (2 ^ 62 + 1) ∧ (1 : Int) ≤ 2 ^ 62 + 1 ∧
    RoundUpPowerOfTwo goInt 1 = .ret 1 ∧
    ¬ ∃ ry : Int, RoundUpPowerOfTwo goInt (2 ^ 62 + 1) = .ret ry ∧ 1 ≤ ry :=
  ⟨by decide, by decide, by decide, by decide,
    by rw [RoundUpPowerOfTwo_diverges goInt (by decide) _ (by decide)]; simp⟩

/-- The code never returns a non-nil error. -/
theorem BlobSharesUsedNonInteractiveDefaults_no_error (cursor threshold : Int)
    (lens : List Int) (sharesUsed : Int) (indexes : List Int) (err : GoError) :
    BlobSharesUsedNonInteractiveDefaults cursor threshold lens ≠
      .ret (sharesUsed, indexes, some err) := by
  intro h
  unfold BlobSharesUsedNonInteractiveDefaults at h
  simp only [] at h
  cases hl : BlobSharesUsedNonInteractiveDefaults.loop threshold cursor [] lens with
  | ret r =>
    cases r with
    | ok p =>
      rw [hl] at h
      obtain ⟨c, idxs⟩ := p
      simp only [] at h
      injection h with h
      injection h with _ h
      injection h with _ h
      cases h
    | error e => exact BlobSharesUsedNonInteractiveDefaults.loop_no_error _ _ _ _ _ hl
  | panicked => rw [hl] at h; cases h
  | diverges => rw [hl] at h; cases h

/-! ## The shape of `SubTreeWidth` -/

/-- The code's "quotient, plus one if the remainder is non-zero" is the
mathematical ceiling of `shareCount / subtreeRootThreshold`, without wrap-around. -/
theorem SubTreeWidth_quotient_eq_ceil (shareCount threshold : Int) (h0 : 0 ≤ shareCount)
    (hmax : shareCount ≤ goInt.maxVal) (ht : 1 ≤ threshold) :
    (if Int.tmod shareCount threshold ≠ 0
      then goInt.wrap (goInt.wrap (Int.tdiv shareCount threshold) + 1)
      else goInt.wrap (Int.tdiv shareCount threshold)) =
      ⌈(shareCount : ℚ) / (threshold : ℚ)⌉ := by
  have hmaxv : goInt.maxVal = 2 ^ 63 - 1 := by decide
  have hdiv : Int.tdiv shareCount threshold = shareCount / threshold :=
    Int.tdiv_eq_ediv h0 (by omega)
  have hmod : Int.tmod shareCount threshold = shareCount % threshold :=
    Int.tmod_eq_emod h0 (by omega)
  have hq0 : 0 ≤ shareCount / threshold := Int.ediv_nonneg h0 (by omega)
  have hdm : threshold * (shareCount / threshold) + shareCount % threshold = shareCount :=
    Int.ediv_add_emod shareCount threshold
  have hr0 : 0 ≤ shareCount % threshold := Int.emod_nonneg _ (by omega)
  have hr1 : shareCount % threshold < threshold := Int.emod_lt_of_pos _ (by omega)
  have hqle : shareCount / threshold ≤ shareCount := by
    have := Int.mul_le_mul_of_nonneg_right ht hq0
    omega
  have htq : (0 : ℚ) < (threshold : ℚ) := by exact_mod_cast (show (0 : Int) < threshold by omega)
  rw [hdiv, hmod, goInt_wrap_of_bounds _ hq0 (by omega)]
  symm
  rw [Int.ceil_eq_iff]
  by_cases hz : shareCount % threshold = 0
  · rw [if_neg (by simpa using hz)]
    have e : shareCount = shareCount / threshold * threshold := by
      rw [hz] at hdm; rw [mul_comm]; omega
    constructor
    · rw [lt_div_iff₀ htq]
      have : (shareCount / threshold - 1) * threshold < shareCount := by
        have : (shareCount / threshold - 1) * threshold =
            shareCount / threshold * threshold - threshold := by ring
        omega
      exact_mod_cast this
    · rw [div_le_iff₀ htq]
      exact_mod_cast e.le
  · rw [if_pos hz]
    have ht2 : 2 ≤ threshold := by
      by_contra hc
      have : threshold = 1 := by omega
      subst this
      simp at hz
    have h2 : 2 * (shareCount / threshold) ≤ threshold * (shareCount / threshold) :=
      Int.mul_le_mul_of_nonneg_right ht2 hq0
    rw [goInt_wrap_of_bounds _ (by omega) (by omega)]
    have e1 : shareCount / threshold * threshold = threshold * (shareCount / threshold) := by ring
    constructor
    · rw [lt_div_iff₀ htq]
      have : (shareCount / threshold + 1 - 1) * threshold < shareCount := by
        rw [add_sub_cancel_right]; omega
      exact_mod_cast this
    · rw [div_le_iff₀ htq]
      have : shareCount ≤ (shareCount / threshold + 1) * threshold := by
        rw [add_mul]; omega
      exact_mod_cast this

theorem getMin_eq_min (i j : Int) : getMin i j = min i j := by
  unfold getMin
  split
  · rename_i h; exact (min_eq_left h.le).symm
  · rename_i h; exact (min_eq_right (by omega)).symm

theorem SubTreeWidth_zero (threshold : Int) (ht : 1 ≤ threshold) :
    SubTreeWidth 0 threshold = .ret 1 := by
  have h1 : RoundUpPowerOfTwo goInt 0 = .ret 1 := by decide
  have h2 : BlobMinSquareSize 0 = .ret 1 := by decide
  have h3 : goInt.wrap 0 = 0 := by decide
  unfold SubTreeWidth
  rw [if_neg (by omega)]
  simp only [Int.zero_tdiv, Int.zero_tmod, ne_eq, not_true_eq_false, if_false, h3, h1, h2,
    Exec.bind]
  rfl

set_option maxRecDepth 100000 in
/-- C16: for every shareCount ≥ 0 and every subtreeRootThreshold ≥ 1,
`SubTreeWidth(shareCount, subtreeRootThreshold)` behaves as
`min(RoundUpPowerOfTwo(ceil(shareCount / subtreeRootThreshold)),
BlobMinSquareSize(shareCount))`, the code's "quotient, plus one if the remainder
is non-zero" being the mathematical ceiling; unless the threshold is 1 and the
share count exceeds `2 ^ 62` all three calls return.  In particular
`SubTreeWidth(0, t) = 1`, `SubTreeWidth(64, 64) = 1` and
`SubTreeWidth(129, 64) = 4`. -/
theorem SubTreeWidth_eq_min (shareCount threshold : Int) (h0 : 0 ≤ shareCount)
    (hmax : shareCount ≤ goInt.maxVal) (ht : 1 ≤ threshold) :
    SubTreeWidth shareCount threshold =
      ((RoundUpPowerOfTwo goInt ⌈(shareCount : ℚ) / (threshold : ℚ)⌉).bind fun s =>
        (BlobMinSquareSize shareCount).bind fun m => .ret (min s m)) ∧
    ((threshold = 1 → shareCount ≤ 2 ^ 62) →
      ∃ s m : Int, RoundUpPowerOfTwo goInt ⌈(shareCount : ℚ) / (threshold : ℚ)⌉ = .ret s ∧
        BlobMinSquareSize shareCount = .ret m ∧
        SubTreeWidth shareCount threshold = .ret (min s m)) ∧
    SubTreeWidth 0 threshold = .ret 1 ∧ SubTreeWidth 64 64 = .ret 1 ∧
    SubTreeWidth 129 64 = .ret 4 := by
  have heq : SubTreeWidth shareCount threshold =
      ((RoundUpPowerOfTwo goInt ⌈(shareCount : ℚ) / (threshold : ℚ)⌉).bind fun s =>
        (BlobMinSquareSize shareCount).bind fun m => .ret (min s m)) := by
    unfold SubTreeWidth
    rw [if_neg (by omega)]
    simp only []
    rw [SubTreeWidth_quotient_eq_ceil shareCount threshold h0 hmax ht]
    simp only [getMin_eq_min]
  refine ⟨heq, ?_, SubTreeWidth_zero threshold ht, by decide, by decide⟩
  intro hone
  obtain ⟨hs, hle, _⟩ := SubTreeWidth_quotient_le shareCount threshold h0 hmax ht hone
  rw [SubTreeWidth_quotient_eq_ceil shareCount threshold h0 hmax ht] at hs
  rw [← hs] at hle
  have hmin : goInt.minVal ≤ 0 := by decide
  obtain ⟨km, hm⟩ := BlobMinSquareSize_returns shareCount ⟨by omega, hmax⟩
  obtain ⟨ks, _, hsret, _, _⟩ := RoundUpPowerOfTwo_returns goInt (by decide) _
    (show ⌈(shareCount : ℚ) / (threshold : ℚ)⌉ ≤ 2 ^ goInt.topExp from hle)
  refine ⟨_, _, hsret, hm, ?_⟩
  rw [heq, hsret, hm]
  rfl

/-- C16, witness at shareCount = 129 and subtreeRootThreshold = 64. -/
theorem SubTreeWidth_eq_min_witness :
    (0 : Int) ≤ 129 ∧ (129 : Int) ≤ goInt.maxVal ∧ (1 : Int) ≤ 64 ∧
    (SubTreeWidth 129 64 =
      ((RoundUpPowerOfTwo goInt ⌈((129 : Int) : ℚ) / ((64 : Int) : ℚ)⌉).bind fun s =>
        (BlobMinSquareSize 129).bind fun m => .ret (min s m)) ∧
    (((64 : Int) = 1 → (129 : Int) ≤ 2 ^ 62) →
      ∃ s m : Int, RoundUpPowerOfTwo goInt ⌈((129 : Int) : ℚ) / ((64 : Int) : ℚ)⌉ = .ret s ∧
        BlobMinSquareSize 129 = .ret m ∧
        SubTreeWidth 129 64 = .ret (min s m)) ∧
    SubTreeWidth 0 64 = .ret 1 ∧ SubTreeWidth 64 64 = .ret 1 ∧
    SubTreeWidth 129 64 = .ret 4) :=
  ⟨by decide, by decide, by decide,
    SubTreeWidth_eq_min 129 64 (by decide) (by decide) (by decide)⟩

/-- Unless the threshold is 1 and the share count exceeds `2 ^ 62`, the width
returned by `SubTreeWidth` either is the minimal square size (the clamp applied)
or covers the blob with at most `subtreeRootThreshold` subtrees. -/
theorem SubTreeWidth_clamp_or_cover (shareCount threshold : Int) (h0 : 0 ≤ shareCount)
    (hmax : shareCount ≤ goInt.maxVal) (ht : 1 ≤ threshold)
    (hone : threshold = 1 → shareCount ≤ 2 ^ 62) :
    ∃ w m : Int, SubTreeWidth shareCount threshold = .ret w ∧
      BlobMinSquareSize shareCount = .ret m ∧ (w = m ∨ shareCount ≤ w * threshold) := by
  obtain ⟨hs, hle, hq0⟩ := SubTreeWidth_quotient_le shareCount threshold h0 hmax ht hone
  have hmin : goInt.minVal ≤ 0 := by decide
  obtain ⟨km, hm⟩ := BlobMinSquareSize_returns shareCount ⟨by omega, hmax⟩
  obtain ⟨ks, _, hsret, hge, _⟩ := RoundUpPowerOfTwo_returns goInt (by decide) _
    (show (if shareCount % threshold ≠ 0 then shareCount / threshold + 1
        else shareCount / threshold) ≤ 2 ^ goInt.topExp from hle)
  refine ⟨getMin (2 ^ ks) (2 ^ km), 2 ^ km, ?_, hm, ?_⟩
  · unfold SubTreeWidth
    rw [if_neg (by omega)]
    simp only []
    rw [hs, hsret, hm]
    rfl
  · rcases getMin_cases (2 ^ ks) (2 ^ km) with ⟨e, _⟩ | ⟨e, _⟩
    · right
      rw [e]
      have hdm : threshold * (shareCount / threshold) + shareCount % threshold = shareCount :=
        Int.ediv_add_emod shareCount threshold
      have hr1 : shareCount % threshold < threshold := Int.emod_lt_of_pos _ (by omega)
      have hcover : shareCount ≤ (if shareCount % threshold ≠ 0 then shareCount / threshold + 1
          else shareCount / threshold) * threshold := by
        split
        · rw [add_mul, mul_comm (shareCount / threshold)]; omega
        · rename_i hz
          have : shareCount % threshold = 0 := by simpa using hz
          rw [mul_comm]; omega
      exact le_trans hcover (Int.mul_le_mul_of_nonneg_right hge (by omega))
    · left; exact e

set_option maxRecDepth 100000 in
/-- C18, the code at the failing input: with `shareCount = 2 ^ 63 - 1` (the
largest `int`) and `subtreeRootThreshold = 1` the doubling loop of
`RoundUpPowerOfTwo` never exits on the quotient `2 ^ 63 - 1` (for any amount of
fuel) and `SubTreeWidth` never returns, so there is no width `w`;
`BlobMinSquareSize` returns `2 ^ 32` there. -/
theorem SubTreeWidth_largest_int_diverges :
    goInt.InRange (2 ^ 63 - 1) ∧ (0 : Int) ≤ 2 ^ 63 - 1 ∧ (1 : Int) ≤ 1 ∧
    (∀ fuel : Nat, RoundUpPowerOfTwo.loop goInt (2 ^ 63 - 1) fuel 1 = none) ∧
    SubTreeWidth (2 ^ 63 - 1) 1 = .diverges ∧
    BlobMinSquareSize (2 ^ 63 - 1) = .ret (2 ^ 32) ∧
    ¬ ∃ w : Int, SubTreeWidth (2 ^ 63 - 1) 1 = .ret w := by
  have hd : SubTreeWidth (2 ^ 63 - 1) 1 = .diverges := by decide
  refine ⟨by decide, by decide, by decide,
    RoundUpPowerOfTwo.loop_diverges goInt (by decide) _ (by decide), hd, by decide, ?_⟩
  rw [hd]
  simp

/-! ## Alignment of the returned indexes -/

theorem IntType.dvd_wrap (t : IntType) (d x : Int) (hd : d ∣ 2 ^ t.bits) (hx : d ∣ x) :
    d ∣ t.wrap x := by
  obtain ⟨q, hq⟩ := t.wrap_eq_add x
  rw [hq]
  exact dvd_add hx (Dvd.dvd.mul_right hd q)

theorem two_pow_dvd_two_pow (k n : Nat) (h : k ≤ n) : (2 : Int) ^ k ∣ 2 ^ n :=
  pow_dvd_pow 2 h

/-- Whatever `RoundUpByMultipleOf` returns for a width that is a power of two
(up to `2 ^ 64`) is a multiple of the width, wrap-around included. -/
theorem RoundUpByMultipleOf_dvd (cursor : Int) (k : Nat) (hk : k ≤ 64) :
    (2 : Int) ^ k ∣ (RoundUpByMultipleOf cursor (2 ^ k)).1 := by
  have hne : (2 : Int) ^ k ≠ 0 := by positivity
  unfold RoundUpByMultipleOf
  rw [if_neg hne]
  split
  · rename_i h
    exact Int.dvd_of_tmod_eq_zero h
  · exact goInt.dvd_wrap _ _ (two_pow_dvd_two_pow k 64 hk) (dvd_mul_left _ _)

/-- What `SubTreeWidth` returns is the minimum of what the two calls inside it return. -/
theorem SubTreeWidth_ret_inv (shareCount threshold w : Int)
    (hw : SubTreeWidth shareCount threshold = .ret w) :
    ∃ (s a b : Int), RoundUpPowerOfTwo goInt s = .ret a ∧
      BlobMinSquareSize shareCount = .ret b ∧ w = getMin a b := by
  unfold SubTreeWidth at hw
  split at hw
  · cases hw
  · simp only [] at hw
    generalize (if Int.tmod shareCount threshold ≠ 0
      then goInt.wrap (goInt.wrap (Int.tdiv shareCount threshold) + 1)
      else goInt.wrap (Int.tdiv shareCount threshold)) = s at hw
    cases hs : RoundUpPowerOfTwo goInt s with
    | ret a =>
      rw [hs] at hw
      simp only [Exec.bind] at hw
      cases hm : BlobMinSquareSize shareCount with
      | ret b =>
        rw [hm] at hw
        simp only [] at hw
        injection hw with hw
        exact ⟨s, a, b, hs, rfl, hw.symm⟩
      | panicked => rw [hm] at hw; cases hw
      | diverges => rw [hm] at hw; cases hw
    | panicked => rw [hs] at hw; cases hw
    | diverges => rw [hs] at hw; cases hw

/-- On every `int`, `BlobMinSquareSize` returns a power of two of at most `2 ^ 32`. -/
theorem BlobMinSquareSize_ret_le (shareCount b : Int) (h : goInt.InRange shareCount)
    (hb : BlobMinSquareSize shareCount = .ret b) : ∃ k : Nat, k ≤ 32 ∧ b = 2 ^ k := by
  have hle := ceilSqrtFloat_le shareCount h
  obtain ⟨k, _, hret, _, hmin⟩ := RoundUpPowerOfTwo_returns goInt (by decide)
    (ceilSqrtFloat shareCount) (le_trans hle (by decide))
  unfold BlobMinSquareSize at hb
  rw [hret] at hb
  injection hb with hb
  refine ⟨k, ?_, hb.symm⟩
  rcases hmin with rfl | hlt
  · omega
  · have h1 : (2 : Int) ^ (k - 1) < 2 ^ 32 := lt_of_lt_of_le hlt hle
    have := (pow_lt_pow_iff_right₀ (by norm_num : (1 : Int) < 2)).mp h1
    omega

/-- On every `int`, a width returned by `SubTreeWidth` is a power of two of at most `2 ^ 32`. -/
theorem SubTreeWidth_ret_le (shareCount threshold w : Int) (h : goInt.InRange shareCount)
    (hw : SubTreeWidth shareCount threshold = .ret w) : ∃ k : Nat, k ≤ 32 ∧ w = 2 ^ k := by
  obtain ⟨s, a, b, ha, hb, rfl⟩ := SubTreeWidth_ret_inv _ _ _ hw
  obtain ⟨ka, _, rfl⟩ := RoundUpPowerOfTwo_ret_pow goInt (by decide) _ _ ha
  obtain ⟨kb, hkb, rfl⟩ := BlobMinSquareSize_ret_le _ _ h hb
  rcases getMin_cases (2 ^ ka) (2 ^ kb) with ⟨e, hle⟩ | ⟨e, _⟩
  · refine ⟨ka, ?_, e⟩
    have := (pow_le_pow_iff_right₀ (by norm_num : (1 : Int) < 2)).mp hle
    omega
  · exact ⟨kb, hkb, e⟩

theorem NextShareIndex_panicked (cursor l threshold : Int)
    (h : SubTreeWidth l threshold = .panicked) :
    NextShareIndex cursor l threshold = .panicked := by
  unfold NextShareIndex; rw [h]; rfl

theorem NextShareIndex_diverges (cursor l threshold : Int)
    (h : SubTreeWidth l threshold = .diverges) :
    NextShareIndex cursor l threshold = .diverges := by
  unfold NextShareIndex; rw [h]; rfl

/-- Every index the loop appends is a multiple of the subtree width of its blob. -/
theorem BlobSharesUsedNonInteractiveDefaults.loop_aligned (threshold : Int) :
    ∀ (lens : List Int) (cursor : Int) (acc : List Int) (final : Int) (indexes : List Int),
      (∀ l ∈ lens, goInt.InRange l) →
      BlobSharesUsedNonInteractiveDefaults.loop threshold cursor acc lens =
        .ret (.ok (final, indexes)) →
      ∃ added : List Int, indexes = acc ++ added ∧
        List.Forall₂ (fun l index => ∃ w : Int, SubTreeWidth l threshold = .ret w ∧
          index % w = 0) lens added := by
  intro lens
  induction lens with
  | nil =>
    intro cursor acc final indexes _ h
    simp only [BlobSharesUsedNonInteractiveDefaults.loop] at h
    injection h with h
    injection h with h
    injection h with _ h
    exact ⟨[], by simp [h], List.Forall₂.nil⟩
  | cons l ls ih =>
    intro cursor acc final indexes hr h
    simp only [BlobSharesUsedNonInteractiveDefaults.loop] at h
    cases hw : SubTreeWidth l threshold with
    | ret w =>
      rw [NextShareIndex_of_width _ _ _ _ hw] at h
      simp only [] at h
      obtain ⟨added, hadd, hall⟩ := ih _ _ _ _ (fun x hx => hr x (List.mem_cons_of_mem _ hx)) h
      refine ⟨goUint32.wrap (RoundUpByMultipleOf cursor w).1 :: added, by simp [hadd], ?_⟩
      refine List.Forall₂.cons ⟨w, hw, ?_⟩ hall
      obtain ⟨k, hk, rfl⟩ := SubTreeWidth_ret_le _ _ _ (hr l (List.mem_cons_self _ _)) hw
      apply Int.emod_eq_zero_of_dvd
      exact goUint32.dvd_wrap _ _ (two_pow_dvd_two_pow k 32 hk)
        (RoundUpByMultipleOf_dvd cursor k (by omega))
    | panicked => rw [NextShareIndex_panicked _ _ _ hw] at h; cases h
    | diverges => rw [NextShareIndex_diverges _ _ _ hw] at h; cases h

/-- The loop runs to its end whenever `SubTreeWidth` returns for every blob. -/
theorem BlobSharesUsedNonInteractiveDefaults.loop_returns (threshold : Int)
    (ht : 1 ≤ threshold) :
    ∀ (lens : List Int) (cursor : Int) (acc : List Int),
      (∀ l ∈ lens, 0 ≤ l ∧ l ≤ goInt.maxVal) → (threshold = 1 → ∀ l ∈ lens, l ≤ 2 ^ 62) →
      ∃ (final : Int) (indexes : List Int),
        BlobSharesUsedNonInteractiveDefaults.loop threshold cursor acc lens =
          .ret (.ok (final, indexes)) := by
  intro lens
  induction lens with
  | nil => intro cursor acc _ _; exact ⟨cursor, acc, rfl⟩
  | cons l ls ih =>
    intro cursor acc hr hone
    obtain ⟨h0, hmax⟩ := hr l (List.mem_cons_self _ _)
    obtain ⟨w, _, hw, _⟩ := SubTreeWidth_returns l threshold h0 hmax ht
      (fun h1 => hone h1 l (List.mem_cons_self _ _))
    simp only [BlobSharesUsedNonInteractiveDefaults.loop, NextShareIndex_of_width _ _ _ _ hw]
    exact ih _ _ (fun x hx => hr x (List.mem_cons_of_mem _ hx))
      (fun h1 x hx => hone h1 x (List.mem_cons_of_mem _ hx))

theorem forall₂_getElem? {α β : Type} (R : α → β → Prop) :
    ∀ (as : List α) (bs : List β), List.Forall₂ R as bs →
      ∀ (i : Nat) (a : α) (b : β), as[i]? = some a → bs[i]? = some b → R a b := by
  intro as bs h
  induction h with
  | nil => intro i a b ha; simp at ha
  | cons hab _ ih =>
    intro i a b ha hb
    cases i with
    | zero =>
      simp only [List.getElem?_cons_zero, Option.some.injEq] at ha hb
      subst ha hb
      exact hab
    | succ j =>
      simp only [List.getElem?_cons_succ] at ha hb
      exact ih j a b ha hb

/-- C11: for every cursor, every subtreeRootThreshold ≥ 1 and every sequence
of non-negative blob lengths, whenever `BlobSharesUsedNonInteractiveDefaults`
returns, it returns one index per blob and each index is a multiple of the
subtree width of its blob: `indexes[i] mod SubTreeWidth(blobLens[i],
subtreeRootThreshold) = 0`, the `uint32` and `int` wrap-around included.  (The
call does return, with a nil error, unless the threshold is 1 and some blob is
longer than `2 ^ 62` shares.) -/
theorem BlobSharesUsedNonInteractiveDefaults_indexes_aligned (cursor threshold : Int)
    (lens : List Int) (ht : 1 ≤ threshold) (hl : ∀ l ∈ lens, 0 ≤ l ∧ l ≤ goInt.maxVal) :
    (∀ (sharesUsed : Int) (indexes : List Int) (err : Option GoError),
      BlobSharesUsedNonInteractiveDefaults cursor threshold lens =
        .ret (sharesUsed, indexes, err) →
      indexes.length = lens.length ∧
      ∀ (i : Nat) (index l : Int), indexes[i]? = some index → lens[i]? = some l →
        ∃ w : Int, SubTreeWidth l threshold = .ret w ∧ index % w = 0) ∧
    ((threshold = 1 → ∀ l ∈ lens, l ≤ 2 ^ 62) →
      ∃ (sharesUsed : Int) (indexes : List Int),
        BlobSharesUsedNonInteractiveDefaults cursor threshold lens =
          .ret (sharesUsed, indexes, none)) := by
  have hmin : goInt.minVal ≤ 0 := by decide
  constructor
  · intro sharesUsed indexes err h
    cases err with
    | some e => exact absurd h (BlobSharesUsedNonInteractiveDefaults_no_error _ _ _ _ _ _)
    | none =>
      unfold BlobSharesUsedNonInteractiveDefaults at h
      simp only [] at h
      cases hloop : BlobSharesUsedNonInteractiveDefaults.loop threshold cursor [] lens with
      | ret r =>
        rw [hloop] at h
        cases r with
        | ok p =>
          obtain ⟨final, idxs⟩ := p
          simp only [] at h
          injection h with h
          injection h with _ h
          injection h with h _
          subst h
          obtain ⟨added, hadd, hall⟩ := BlobSharesUsedNonInteractiveDefaults.loop_aligned
            threshold lens cursor [] final idxs
            (fun l hlm => ⟨by have := (hl l hlm).1; omega, (hl l hlm).2⟩) hloop
          rw [List.nil_append] at hadd
          subst hadd
          refine ⟨hall.length_eq.symm, fun i index l hi hli => ?_⟩
          exact forall₂_getElem? _ _ _ hall i l index hli hi
        | error e =>
          simp only [] at h
          injection h with h
          injection h with _ h
          injection h with _ h
          cases h
      | panicked => rw [hloop] at h; cases h
      | diverges => rw [hloop] at h; cases h
  · intro hone
    obtain ⟨final, idxs, hloop⟩ :=
      BlobSharesUsedNonInteractiveDefaults.loop_returns threshold ht lens cursor [] hl hone
    unfold BlobSharesUsedNonInteractiveDefaults
    simp only []
    rw [hloop]
    exact ⟨_, _, rfl⟩

set_option maxRecDepth 100000 in
/-- C11, witness at cursor 1, threshold 64 and blobs of 128, 200 and 5 shares. -/
theorem BlobSharesUsedNonInteractiveDefaults_indexes_aligned_witness :
    (1 : Int) ≤ 64 ∧ (∀ l ∈ ([128, 200, 5] : List Int), 0 ≤ l ∧ l ≤ goInt.maxVal) ∧
    ((∀ (sharesUsed : Int) (indexes : List Int) (err : Option GoError),
      BlobSharesUsedNonInteractiveDefaults 1 64 [128, 200, 5] =
        .ret (sharesUsed, indexes, err) →
      indexes.length = ([128, 200, 5] : List Int).length ∧
      ∀ (i : Nat) (index l : Int), indexes[i]? = some index →
        ([128, 200, 5] : List Int)[i]? = some l →
        ∃ w : Int, SubTreeWidth l 64 = .ret w ∧ index % w = 0) ∧
    (((64 : Int) = 1 → ∀ l ∈ ([128, 200, 5] : List Int), l ≤ 2 ^ 62) →
      ∃ (sharesUsed : Int) (indexes : List Int),
        BlobSharesUsedNonInteractiveDefaults 1 64 [128, 200, 5] =
          .ret (sharesUsed, indexes, none))) ∧
    BlobSharesUsedNonInteractiveDefaults 1 64 [128, 200, 5] = .ret (336, [2, 132, 332], none) :=
  ⟨by decide, by decide,
    BlobSharesUsedNonInteractiveDefaults_indexes_aligned 1 64 [128, 200, 5] (by decide)
      (by decide), by decide⟩

/-! ## Packing, composition and padding of the batch -/

theorem Spec.roundUpPowerOfTwo_le_one (n : Nat) (h : n ≤ 1) : Spec.roundUpPowerOfTwo n = 1 := by
  obtain ⟨k, hk, _, hmin⟩ := Spec.roundUpPowerOfTwo_spec n
  rcases hmin with rfl | hlt
  · simpa using hk
  · have : 1 ≤ 2 ^ (k - 1) := Nat.one_le_two_pow
    omega

/-- Reference: a blob no longer than the threshold has subtree width 1. -/
theorem Spec.subTreeWidth_small (l t : Nat) (ht : 1 ≤ t) (hl : l ≤ t) :
    Spec.subTreeWidth l t = 1 := by
  have hc : Spec.ceilDiv l t ≤ 1 := by
    unfold Spec.ceilDiv
    rw [Nat.div_le_iff_le_mul_add_pred (by omega)]
    omega
  unfold Spec.subTreeWidth Spec.blobMinSquareSize
  rw [Spec.roundUpPowerOfTwo_le_one _ hc]
  exact min_eq_left (Spec.roundUpPowerOfTwo_pos _)

theorem Spec.nextShareIndex_small (c l t : Nat) (ht : 1 ≤ t) (hl : l ≤ t) :
    Spec.nextShareIndex c l t = c := by
  unfold Spec.nextShareIndex Spec.roundUpByMultipleOf Spec.ceilDiv
  rw [Spec.subTreeWidth_small l t ht hl]
  simp

theorem Spec.placementEnd_small (t : Nat) (ht : 1 ≤ t) : ∀ (lens : List Nat) (c : Nat),
    (∀ l ∈ lens, l ≤ t) → Spec.placementEnd t c lens = c + lens.sum := by
  intro lens
  induction lens with
  | nil => intro c _; simp [Spec.placementEnd]
  | cons l ls ih =>
    intro c h
    simp only [Spec.placementEnd, List.sum_cons]
    rw [Spec.nextShareIndex_small c l t ht (h l (List.mem_cons_self _ _)),
      ih _ (fun x hx => h x (List.mem_cons_of_mem _ hx))]
    omega

theorem Spec.placementIndexes_small (t : Nat) (ht : 1 ≤ t) : ∀ (lens : List Nat) (c : Nat),
    (∀ l ∈ lens, l ≤ t) → ∀ (i x : Nat), (Spec.placementIndexes t c lens)[i]? = some x →
      x = c + (lens.take i).sum := by
  intro lens
  induction lens with
  | nil => intro c _ i x h; simp [Spec.placementIndexes] at h
  | cons l ls ih =>
    intro c h i x hx
    simp only [Spec.placementIndexes] at hx
    rw [Spec.nextShareIndex_small c l t ht (h l (List.mem_cons_self _ _))] at hx
    cases i with
    | zero =>
      simp only [List.getElem?_cons_zero, Option.some.injEq] at hx
      simp [hx]
    | succ j =>
      simp only [List.getElem?_cons_succ] at hx
      have := ih _ (fun y hy => h y (List.mem_cons_of_mem _ hy)) j x hx
      simp only [List.take_succ_cons, List.sum_cons]
      omega

theorem le_sum_of_mem (lens : List Nat) (l : Nat) (h : l ∈ lens) : l ≤ lens.sum := by
  induction lens with
  | nil => cases h
  | cons a as ih =>
    rw [List.sum_cons]
    rcases List.mem_cons.mp h with rfl | h'
    · omega
    · have := ih h'; omega

/-- C17 (amended): blobs no longer than the threshold are packed with no
padding when the placement ends below `2 ^ 32`: for every cursor ≥ 0,
subtreeRootThreshold ≥ 1 and every sequence of blob lengths with
`0 ≤ blobLens[i] ≤ subtreeRootThreshold` and
`cursor + sum of blobLens < 2 ^ 32`, `NextShareIndex` returns the cursor
unchanged for each blob (at any cursor), and
`BlobSharesUsedNonInteractiveDefaults` returns
`indexes[i] = cursor + (sum of blobLens[0..i-1])` and
`sharesUsed = sum of all blobLens`. -/
theorem BlobSharesUsedNonInteractiveDefaults_small_blobs_packed (cursor threshold : Nat)
    (blobLens : List Nat) (ht : 1 ≤ threshold) (hsmall : ∀ l ∈ blobLens, l ≤ threshold)
    (hend : cursor + blobLens.sum < 2 ^ 32) :
    (∀ (c l : Nat), l ∈ blobLens → c < 2 ^ 63 →
      NextShareIndex (c : Int) (l : Int) (threshold : Int) = .ret ((c : Int), none)) ∧
    ∃ indexes : List Int,
      BlobSharesUsedNonInteractiveDefaults (cursor : Int) (threshold : Int)
          (blobLens.map fun (l : Nat) => (l : Int)) =
        .ret (((blobLens.sum : Nat) : Int), indexes, none) ∧
      indexes.length = blobLens.length ∧
      ∀ (i : Nat) (index : Int), indexes[i]? = some index →
        index = (cursor : Int) + (((blobLens.take i).sum : Nat) : Int) := by
  have hE := Spec.placementEnd_small threshold ht blobLens cursor hsmall
  constructor
  · intro c l hl hc
    have hl32 : l < 2 ^ 32 := by
      have := le_sum_of_mem blobLens l hl
      omega
    have := NextShareIndex_eq_spec c l threshold ht (by omega)
      (by rw [Spec.nextShareIndex_small c l threshold ht (hsmall l hl)]; omega)
    rw [Spec.nextShareIndex_small c l threshold ht (hsmall l hl)] at this
    exact this
  · refine ⟨(Spec.placementIndexes threshold cursor blobLens).map (fun (i : Nat) => (i : Int)),
      ?_, by simp [Spec.placementIndexes_length], ?_⟩
    · rw [BlobSharesUsedNonInteractiveDefaults_eq_spec cursor threshold blobLens ht
        (by rw [hE]; exact hend), hE]
      push_cast
      rw [add_sub_cancel_left]
    · intro i index hi
      rw [List.getElem?_map] at hi
      cases hx : (Spec.placementIndexes threshold cursor blobLens)[i]? with
      | none => rw [hx] at hi; cases hi
      | some x =>
        rw [hx] at hi
        simp only [Option.map_some', Option.some.injEq] at hi
        have := Spec.placementIndexes_small threshold ht blobLens cursor hsmall i x hx
        rw [← hi, this]
        push_cast
        rfl

/-- C17, witness of the amended statement at cursor 1, threshold 64 and blobs of
3, 64 and 0 shares. -/
theorem BlobSharesUsedNonInteractiveDefaults_small_blobs_packed_witness :
    1 ≤ 64 ∧ (∀ l ∈ [3, 64, 0], l ≤ 64) ∧ 1 + [3, 64, 0].sum < 2 ^ 32 ∧
    ((∀ (c l : Nat), l ∈ [3, 64, 0] → c < 2 ^ 63 →
      NextShareIndex (c : Int) (l : Int) ((64 : Nat) : Int) = .ret ((c : Int), none)) ∧
    ∃ indexes : List Int,
      BlobSharesUsedNonInteractiveDefaults ((1 : Nat) : Int) ((64 : Nat) : Int)
          ([3, 64, 0].map fun (l : Nat) => (l : Int)) =
        .ret ((([3, 64, 0].sum : Nat) : Int), indexes, none) ∧
      indexes.length = [3, 64, 0].length ∧
      ∀ (i : Nat) (index : Int), indexes[i]? = some index →
        index = ((1 : Nat) : Int) + ((([3, 64, 0].take i).sum : Nat) : Int)) :=
  ⟨by decide, by decide, by decide,
    BlobSharesUsedNonInteractiveDefaults_small_blobs_packed 1 64 [3, 64, 0] (by decide)
      (by decide) (by decide)⟩

set_option maxRecDepth 100000 in
/-- C17, counterexample to the statement for every cursor ≥ 0: from cursor
`2 ^ 32` with threshold 64 and one blob of one share, `NextShareIndex` returns
the cursor `2 ^ 32` unchanged, but the index is stored as the `uint32` 0, which
is not the cursor. -/
theorem BlobSharesUsedNonInteractiveDefaults_small_blobs_counterexample :
    goInt.InRange (2 ^ 32) ∧ (0 : Int) ≤ 2 ^ 32 ∧ (1 : Int) ≤ 64 ∧
    (0 : Int) ≤ 1 ∧ (1 : Int) ≤ 64 ∧
    NextShareIndex (2 ^ 32) 1 64 = .ret (2 ^ 32, none) ∧
    BlobSharesUsedNonInteractiveDefaults (2 ^ 32) 64 [1] = .ret (1, [0], none) ∧
    ¬ ((0 : Int) = 2 ^ 32 + 0) := by
  decide

theorem Spec.placementEnd_append (t : Nat) : ∀ (a b : List Nat) (c : Nat),
    Spec.placementEnd t c (a ++ b) = Spec.placementEnd t (Spec.placementEnd t c a) b := by
  intro a
  induction a with
  | nil => intro b c; rfl
  | cons l ls ih => intro b c; simp only [List.cons_append, Spec.placementEnd]; exact ih _ _

theorem Spec.placementIndexes_append (t : Nat) : ∀ (a b : List Nat) (c : Nat),
    Spec.placementIndexes t c (a ++ b) =
      Spec.placementIndexes t c a ++ Spec.placementIndexes t (Spec.placementEnd t c a) b := by
  intro a
  induction a with
  | nil => intro b c; rfl
  | cons l ls ih =>
    intro b c
    show Spec.nextShareIndex c l t ::
      Spec.placementIndexes t (Spec.nextShareIndex c l t + l) (ls ++ b) = _
    rw [ih]
    rfl

/-- C19: batch planning composes over concatenation.  For every cursor ≥ 0,
subtreeRootThreshold ≥ 1 and sequences `a` and `b` of non-negative blob
lengths whose placement one after the other ends below `2 ^ 32`, the calls on
`a` from the cursor, on `b` from the cursor plus the shares used by `a`, and on
`a ++ b` from the cursor all succeed, and if the first returns `(ua, ia)` and
the second `(ub, ib)` then the third returns `(ua + ub, ia ++ ib)`. -/
theorem BlobSharesUsedNonInteractiveDefaults_append (cursor threshold : Nat)
    (a b : List Nat) (ht : 1 ≤ threshold)
    (hend : Spec.placementEnd threshold cursor (a ++ b) < 2 ^ 32) :
    (∃ (ua : Int) (ia : List Int) (ub : Int) (ib : List Int),
      BlobSharesUsedNonInteractiveDefaults (cursor : Int) (threshold : Int)
          (a.map fun (l : Nat) => (l : Int)) = .ret (ua, ia, none) ∧
      BlobSharesUsedNonInteractiveDefaults ((cursor : Int) + ua) (threshold : Int)
          (b.map fun (l : Nat) => (l : Int)) = .ret (ub, ib, none)) ∧
    ∀ (ua : Int) (ia : List Int) (ub : Int) (ib : List Int),
      BlobSharesUsedNonInteractiveDefaults (cursor : Int) (threshold : Int)
          (a.map fun (l : Nat) => (l : Int)) = .ret (ua, ia, none) →
      BlobSharesUsedNonInteractiveDefaults ((cursor : Int) + ua) (threshold : Int)
          (b.map fun (l : Nat) => (l : Int)) = .ret (ub, ib, none) →
      BlobSharesUsedNonInteractiveDefaults (cursor : Int) (threshold : Int)
          ((a ++ b).map fun (l : Nat) => (l : Int)) = .ret (ua + ub, ia ++ ib, none) := by
  have happ := Spec.placementEnd_append threshold a b cursor
  have h1 := Spec.le_placementEnd threshold b (Spec.placementEnd threshold cursor a)
  have hA := BlobSharesUsedNonInteractiveDefaults_eq_spec cursor threshold a ht (by omega)
  have hB := BlobSharesUsedNonInteractiveDefaults_eq_spec
    (Spec.placementEnd threshold cursor a) threshold b ht (by omega)
  have hAB := BlobSharesUsedNonInteractiveDefaults_eq_spec cursor threshold (a ++ b) ht hend
  have hcur : (cursor : Int) + (((Spec.placementEnd threshold cursor a : Nat) : Int) -
      (cursor : Int)) = ((Spec.placementEnd threshold cursor a : Nat) : Int) := by ring
  constructor
  · exact ⟨_, _, _, _, hA, by rw [hcur]; exact hB⟩
  · intro ua ia ub ib ha hb
    rw [hA] at ha
    injection ha with ha
    injection ha with hua ha
    injection ha with hia _
    subst hua hia
    rw [hcur, hB] at hb
    injection hb with hb
    injection hb with hub hb
    injection hb with hib _
    subst hub hib
    rw [hAB, happ, Spec.placementIndexes_append, List.map_append]
    congr 2
    ring

/-- C19, witness at cursor 1, threshold 64, `a = [128, 128]` and `b = [200, 5]`. -/
theorem BlobSharesUsedNonInteractiveDefaults_append_witness :
    1 ≤ 64 ∧ Spec.placementEnd 64 1 ([128, 128] ++ [200, 5]) < 2 ^ 32 ∧
    ((∃ (ua : Int) (ia : List Int) (ub : Int) (ib : List Int),
      BlobSharesUsedNonInteractiveDefaults ((1 : Nat) : Int) ((64 : Nat) : Int)
          ([128, 128].map fun (l : Nat) => (l : Int)) = .ret (ua, ia, none) ∧
      BlobSharesUsedNonInteractiveDefaults (((1 : Nat) : Int) + ua) ((64 : Nat) : Int)
          ([200, 5].map fun (l : Nat) => (l : Int)) = .ret (ub, ib, none)) ∧
    ∀ (ua : Int) (ia : List Int) (ub : Int) (ib : List Int),
      BlobSharesUsedNonInteractiveDefaults ((1 : Nat) : Int) ((64 : Nat) : Int)
          ([128, 128].map fun (l : Nat) => (l : Int)) = .ret (ua, ia, none) →
      BlobSharesUsedNonInteractiveDefaults (((1 : Nat) : Int) + ua) ((64 : Nat) : Int)
          ([200, 5].map fun (l : Nat) => (l : Int)) = .ret (ub, ib, none) →
      BlobSharesUsedNonInteractiveDefaults ((1 : Nat) : Int) ((64 : Nat) : Int)
          (([128, 128] ++ [200, 5]).map fun (l : Nat) => (l : Int)) =
        .ret (ua + ub, ia ++ ib, none)) :=
  ⟨by decide, by decide,
    BlobSharesUsedNonInteractiveDefaults_append 1 64 [128, 128] [200, 5] (by decide)
      (by decide)⟩

theorem widths_slack_nonneg (threshold : Int) : ∀ (lens widths : List Int),
    List.Forall₂ (fun l w => SubTreeWidth l threshold = .ret w) lens widths →
      0 ≤ (widths.map fun w => w - 1).sum := by
  intro lens widths h
  induction h with
  | nil => simp
  | cons hw _ ih =>
    have := (SubTreeWidth_ret_pos _ _ _ hw).2
    simp only [List.map_cons, List.sum_cons]
    omega

/-- Without overflow the loop advances the cursor by the blob lengths plus, for
each blob, a padding below its subtree width. -/
theorem BlobSharesUsedNonInteractiveDefaults.loop_padding (threshold : Int) :
    ∀ (lens widths : List Int),
      List.Forall₂ (fun l w => SubTreeWidth l threshold = .ret w) lens widths →
      ∀ (cursor : Int) (acc : List Int), 0 ≤ cursor → (∀ l ∈ lens, 0 ≤ l) →
      cursor + lens.sum + (widths.map fun w => w - 1).sum ≤ goInt.maxVal →
      ∃ (final : Int) (indexes : List Int),
        BlobSharesUsedNonInteractiveDefaults.loop threshold cursor acc lens =
          .ret (.ok (final, indexes)) ∧
        cursor + lens.sum ≤ final ∧
        final ≤ cursor + lens.sum + (widths.map fun w => w - 1).sum := by
  intro lens widths h
  induction h with
  | nil =>
    intro cursor acc _ _ _
    exact ⟨cursor, acc, rfl, by simp, by simp⟩
  | @cons l w ls ws hw hrest ih =>
    intro cursor acc hc hl hfit
    have hw1 := (SubTreeWidth_ret_pos _ _ _ hw).2
    have hl0 : 0 ≤ l := hl l (List.mem_cons_self _ _)
    have hls : ∀ x ∈ ls, 0 ≤ x := fun x hx => hl x (List.mem_cons_of_mem _ hx)
    have hsum : 0 ≤ ls.sum := List.sum_nonneg hls
    have hslack := widths_slack_nonneg threshold ls ws hrest
    simp only [List.sum_cons, List.map_cons] at hfit ⊢
    have hm1 : (cursor + w - 1) / w * w ≤ cursor + w - 1 := Int.ediv_mul_le _ (by omega)
    have hm2 : cursor + w - 1 < ((cursor + w - 1) / w + 1) * w :=
      Int.lt_ediv_add_one_mul_self _ (by omega)
    rw [add_mul, one_mul] at hm2
    obtain ⟨r, hr, _, _, hge, hlt, _⟩ := RoundUpByMultipleOf_returns cursor w hc (by omega)
      ⟨(cursor + w - 1) / w, by omega, by omega⟩
    have hnext : NextShareIndex cursor l threshold = .ret (r, none) := by
      rw [NextShareIndex_of_width _ _ _ _ hw, hr]
    obtain ⟨final, indexes, hloop, hlo, hhi⟩ :=
      ih (r + l) (acc ++ [goUint32.wrap r]) (by omega) hls (by omega)
    refine ⟨final, indexes, ?_, by omega, by omega⟩
    simp only [BlobSharesUsedNonInteractiveDefaults.loop, hnext]
    rw [goInt_wrap_of_bounds (r + l) (by omega) (by omega)]
    exact hloop

/-- C20 (amended): the padding added by batch planning is bounded when no
`int` overflows.  For every cursor ≥ 0 and every sequence of non-negative blob
lengths for which `SubTreeWidth(blobLens[i], subtreeRootThreshold)` returns a
width `widths[i]` for each blob and
`cursor + sum(blobLens) + sum of (widths[i] - 1)` fits in `int`,
`BlobSharesUsedNonInteractiveDefaults` succeeds and
`sum(blobLens) ≤ sharesUsed ≤ sum(blobLens) + sum of (widths[i] - 1)`. -/
theorem BlobSharesUsedNonInteractiveDefaults_padding_bounded (cursor threshold : Int)
    (blobLens widths : List Int) (hc : 0 ≤ cursor) (hl : ∀ l ∈ blobLens, 0 ≤ l)
    (hw : List.Forall₂ (fun l w => SubTreeWidth l threshold = .ret w) blobLens widths)
    (hfit : cursor + blobLens.sum + (widths.map fun w => w - 1).sum ≤ goInt.maxVal) :
    ∃ (sharesUsed : Int) (indexes : List Int),
      BlobSharesUsedNonInteractiveDefaults cursor threshold blobLens =
        .ret (sharesUsed, indexes, none) ∧
      blobLens.sum ≤ sharesUsed ∧
      sharesUsed ≤ blobLens.sum + (widths.map fun w => w - 1).sum := by
  obtain ⟨final, indexes, hloop, hlo, hhi⟩ :=
    BlobSharesUsedNonInteractiveDefaults.loop_padding threshold blobLens widths hw cursor []
      hc hl hfit
  have hsum : 0 ≤ blobLens.sum := List.sum_nonneg hl
  refine ⟨final - cursor, indexes, ?_, by omega, by omega⟩
  unfold BlobSharesUsedNonInteractiveDefaults
  simp only []
  rw [hloop]
  simp only []
  rw [goInt_wrap_of_bounds (final - cursor) (by omega) (by omega)]

set_option maxRecDepth 100000 in
/-- C20, witness of the amended statement at cursor 1, threshold 64 and blobs of
128, 200 and 5 shares, whose subtree widths are 2, 4 and 1. -/
theorem BlobSharesUsedNonInteractiveDefaults_padding_bounded_witness :
    (0 : Int) ≤ 1 ∧ (∀ l ∈ ([128, 200, 5] : List Int), 0 ≤ l) ∧
    List.Forall₂ (fun l w => SubTreeWidth l 64 = .ret w) [128, 200, 5] [2, 4, 1] ∧
    (1 : Int) + ([128, 200, 5] : List Int).sum + (([2, 4, 1] : List Int).map fun w => w - 1).sum
      ≤ goInt.maxVal ∧
    (∃ (sharesUsed : Int) (indexes : List Int),
      BlobSharesUsedNonInteractiveDefaults 1 64 [128, 200, 5] =
        .ret (sharesUsed, indexes, none) ∧
      ([128, 200, 5] : List Int).sum ≤ sharesUsed ∧
      sharesUsed ≤ ([128, 200, 5] : List Int).sum +
        (([2, 4, 1] : List Int).map fun w => w - 1).sum) :=
  ⟨by decide, by decide,
    List.Forall₂.cons (by decide) (List.Forall₂.cons (by decide)
      (List.Forall₂.cons (by decide) List.Forall₂.nil)),
    by decide,
    BlobSharesUsedNonInteractiveDefaults_padding_bounded 1 64 [128, 200, 5] [2, 4, 1]
      (by decide) (by decide)
      (List.Forall₂.cons (by decide) (List.Forall₂.cons (by decide)
        (List.Forall₂.cons (by decide) List.Forall₂.nil)))
      (by decide)⟩

set_option maxRecDepth 100000 in
/-- C20, counterexample to the statement for every sequence: from cursor 0 with
threshold 64 and two blobs of `2 ^ 62` shares (subtree width `2 ^ 31` each, no
padding needed) the cursor wraps around and sharesUsed is `-(2 ^ 63)`, below the
sum `2 ^ 63` of the blob lengths. -/
theorem BlobSharesUsedNonInteractiveDefaults_padding_counterexample :
    (0 : Int) ≤ 0 ∧ (1 : Int) ≤ 64 ∧ goInt.InRange (2 ^ 62) ∧ (0 : Int) ≤ 2 ^ 62 ∧
    SubTreeWidth (2 ^ 62) 64 = .ret (2 ^ 31) ∧
    BlobSharesUsedNonInteractiveDefaults 0 64 [2 ^ 62, 2 ^ 62] =
      .ret (-(2 ^ 63), [0, 0], none) ∧
    ¬ (([2 ^ 62, 2 ^ 62] : List Int).sum ≤ -(2 ^ 63)) := by
  decide

end Inclusion
